import Mathlib

/-!
Verification of the radixdlt-scrypto core against its specification.

Each Rust source function referenced by a claim is shallowly embedded as an
executable Lean definition.  Machine integers are modelled as `Nat`/`Int`;
byte strings are `List Nat` (each entry a byte value); fallible Rust code
returns `Except`.  The Rust `Decoder { input, offset }` state is represented
by the remaining suffix `input[offset..]`, so `remaining()` is the length of
the state.
-/

namespace Sbor

/-- Little-endian encoding of `v` into `k` bytes (`u32::to_le_bytes` etc.). -/
def toLE : Nat → Nat → List Nat
  | 0, _ => []
  | k + 1, v => v % 256 :: toLE k (v / 256)

/-- Little-endian read of a byte list (`u32::from_le_bytes` etc.). -/
def fromLE : List Nat → Nat
  | [] => 0
  | b :: bs => b + 256 * fromLE bs

theorem length_toLE (k v : Nat) : (toLE k v).length = k := by
  induction k generalizing v with
  | zero => rfl
  | succ k ih => simp [toLE, ih]

theorem fromLE_toLE (k v : Nat) (h : v < 256 ^ k) : fromLE (toLE k v) = v := by
  induction k generalizing v with
  | zero =>
    interval_cases v
    rfl
  | succ k ih =>
    have hdiv : v / 256 < 256 ^ k := by
      rw [Nat.div_lt_iff_lt_mul (by norm_num)]
      calc v < 256 ^ (k + 1) := h
        _ = 256 ^ k * 256 := by ring
    simp [toLE, fromLE, ih (v / 256) hdiv]
    omega

theorem toLE_inj (k a b : Nat) (ha : a < 256 ^ k) (hb : b < 256 ^ k)
    (h : toLE k a = toLE k b) : a = b := by
  have := fromLE_toLE k a ha
  have := fromLE_toLE k b hb
  rw [← fromLE_toLE k a ha, ← fromLE_toLE k b hb, h]

/-- `DecodeError`, from sbor/src/decode.rs. -/
inductive DecodeError
  | underflow (required remaining : Nat)
  | invalidType (expected : Option Nat) (actual : Nat)
  | invalidName (expected actual : String)
  | invalidLength (expected actual : Nat)
  | invalidIndex (n : Nat)
  | invalidEnumVariant (s : String)
  | invalidBool (n : Nat)
  | invalidUtf8
  | notAllBytesUsed (n : Nat)
  | customError (s : String)
  deriving DecidableEq, Repr

/-- The decoder state (sbor/src/decode.rs `Decoder`): we keep the unread
suffix `input[offset..]` of the Rust `(input, offset)` pair, plus the
`with_type` flag. -/
structure Decoder where
  rest : List Nat
  with_type : Bool
  deriving DecidableEq, Repr

/-- `Decoder::remaining`: `input.len() - offset`, i.e. the unread length. -/
def remaining (d : Decoder) : Nat := d.rest.length

/-- `Decoder::read_u8` (which calls `require(1)`: on empty input the
underflow error carries `required = 1, remaining = 0`). -/
def read_u8 (d : Decoder) : Except DecodeError (Nat × Decoder) :=
  match d.rest with
  | [] => .error (.underflow 1 0)
  | b :: bs => .ok (b, ⟨bs, d.with_type⟩)

/-- `Decoder::read_bytes`. -/
def read_bytes (n : Nat) (d : Decoder) : Except DecodeError (List Nat × Decoder) :=
  if remaining d < n then .error (.underflow n (remaining d))
  else .ok (d.rest.take n, ⟨d.rest.drop n, d.with_type⟩)

/-- `Decoder::read_len`: a 4-byte little-endian `u32`. -/
def read_len (d : Decoder) : Except DecodeError (Nat × Decoder) :=
  match read_bytes 4 d with
  | .error e => .error e
  | .ok (bs, d') => .ok (fromLE bs, d')

/-- `Decoder::read_type`. -/
def read_type (d : Decoder) : Except DecodeError (Nat × Decoder) := read_u8 d

/-- `Decoder::check_type`: reads and compares a type byte only in
`with_type` mode. -/
def check_type (expected : Nat) (d : Decoder) : Except DecodeError Decoder :=
  if d.with_type then
    match read_type d with
    | .error e => .error e
    | .ok (ty, d') =>
      if ty = expected then .ok d'
      else .error (.invalidType (some expected) ty)
  else .ok d

/-- `Decoder::check_len`. -/
def check_len (expected : Nat) (d : Decoder) : Except DecodeError Decoder :=
  match read_len d with
  | .error e => .error e
  | .ok (len, d') =>
    if len = expected then .ok d'
    else .error (.invalidLength expected len)

/-- `Decoder::check_end`: fails with `NotAllBytesUsed(n)` when `n` unread
bytes remain. -/
def check_end (d : Decoder) : Except DecodeError Unit :=
  if remaining d ≠ 0 then .error (.notAllBytesUsed (remaining d)) else .ok ()

/- SBOR type ids, as pinned by the decoder and its test vectors in
sbor/src/decode.rs (`test_decoding`). -/

def TYPE_UNIT : Nat := 0
def TYPE_BOOL : Nat := 1
def TYPE_U8 : Nat := 7
def TYPE_U32 : Nat := 9
def TYPE_U64 : Nat := 10
def TYPE_OPTION : Nat := 32
def TYPE_TUPLE : Nat := 35
def TYPE_LIST : Nat := 48
def TYPE_SET : Nat := 49
def TYPE_MAP : Nat := 50

/-- The universe of SBOR-encodable types covered by this development,
mirroring `Decode` impls in sbor/src/decode.rs.  `bytes` models `Vec<u8>`
(the `read_bytes` fast path of the `Vec<T>` impl); `vec t` models the
general element-by-element path used at every other element type. -/
inductive STy
  | unit
  | bool
  | u8
  | u32
  | u64
  | option (t : STy)
  | tuple2 (a b : STy)
  | bytes
  | vec (t : STy)
  deriving DecidableEq, Repr

/-- The Rust values of each type in the universe. -/
@[reducible] def Val : STy → Type
  | .unit => Unit
  | .bool => Bool
  | .u8 => Nat
  | .u32 => Nat
  | .u64 => Nat
  | .option t => Option (Val t)
  | .tuple2 a b => Val a × Val b
  | .bytes => List Nat
  | .vec t => List (Val t)

/-- The SBOR type id of each type in the universe (`TypeId::type_id`). -/
def type_id : STy → Nat
  | .unit => TYPE_UNIT
  | .bool => TYPE_BOOL
  | .u8 => TYPE_U8
  | .u32 => TYPE_U32
  | .u64 => TYPE_U64
  | .option _ => TYPE_OPTION
  | .tuple2 _ _ => TYPE_TUPLE
  | .bytes => TYPE_LIST
  | .vec _ => TYPE_LIST

/-- Well-formedness: every machine integer is within its width and every
collection length fits the `u32` length prefix. -/
def wf : (t : STy) → Val t → Bool
  | .unit, _ => true
  | .bool, _ => true
  | .u8, v => v < 256
  | .u32, v => v < 2 ^ 32
  | .u64, v => v < 2 ^ 64
  | .option _, none => true
  | .option t, some v => wf t v
  | .tuple2 a b, p => wf a p.1 && wf b p.2
  | .bytes, bs => bs.all (· < 256) && bs.length < 2 ^ 32
  | .vec t, vs => vs.all (fun v => wf t v) && vs.length < 2 ^ 32
termination_by t _ => sizeOf t
decreasing_by all_goals (simp_wf <;> omega)

mutual

/-- `Decode::decode_value` for each type of the universe, translated from
the corresponding impls in sbor/src/decode.rs.  `Option`/tuple fields
recursively use the typed `Decode::decode` (type byte then value); vector
elements use `decode_value` only. -/
def decode_value : (t : STy) → Decoder → Except DecodeError (Val t × Decoder)
  | .unit, d => .ok ((), d)
  | .bool, d =>
    match read_u8 d with
    | .error e => .error e
    | .ok (v, d') =>
      if v = 0 then .ok (Bool.false, d')
      else if v = 1 then .ok (Bool.true, d')
      else .error (.invalidBool v)
  | .u8, d =>
    match read_u8 d with
    | .error e => .error e
    | .ok (v, d') => .ok (v, d')
  | .u32, d =>
    match read_bytes 4 d with
    | .error e => .error e
    | .ok (bs, d') => .ok (fromLE bs, d')
  | .u64, d =>
    match read_bytes 8 d with
    | .error e => .error e
    | .ok (bs, d') => .ok (fromLE bs, d')
  | .option t, d =>
    match read_u8 d with
    | .error e => .error e
    | .ok (idx, d') =>
      if idx = 0 then .ok (none, d')
      else if idx = 1 then
        match sdecode t d' with
        | .error e => .error e
        | .ok (v, d'') => .ok (some v, d'')
      else .error (.invalidIndex idx)
  | .tuple2 a b, d =>
    match read_len d with
    | .error e => .error e
    | .ok (len, d') =>
      if len = 2 then
        match sdecode a d' with
        | .error e => .error e
        | .ok (va, d1) =>
          match sdecode b d1 with
          | .error e => .error e
          | .ok (vb, d2) => .ok ((va, vb), d2)
      else .error (.invalidLength 2 len)
  | .bytes, d =>
    match check_type TYPE_U8 d with
    | .error e => .error e
    | .ok d1 =>
      match read_len d1 with
      | .error e => .error e
      | .ok (len, d2) =>
        match read_bytes len d2 with
        | .error e => .error e
        | .ok (bs, d3) => .ok (bs, d3)
  | .vec t, d =>
    match check_type (type_id t) d with
    | .error e => .error e
    | .ok d1 =>
      match read_len d1 with
      | .error e => .error e
      | .ok (len, d2) => decode_elems t len d2
termination_by t _ => (sizeOf t, 0)

/-- `Decode::decode`: `decode_type` (a `check_type` against the type id)
followed by `decode_value`. -/
def sdecode : (t : STy) → Decoder → Except DecodeError (Val t × Decoder)
  | t, d =>
    match check_type (type_id t) d with
    | .error e => .error e
    | .ok d' => decode_value t d'
termination_by t _ => (sizeOf t, 1)

/-- The element loop of the `Vec<T>` `decode_value` impl. -/
def decode_elems : (t : STy) → Nat → Decoder → Except DecodeError (List (Val t) × Decoder)
  | _, 0, d => .ok ([], d)
  | t, n + 1, d =>
    match decode_value t d with
    | .error e => .error e
    | .ok (v, d') =>
      match decode_elems t n d' with
      | .error e => .error e
      | .ok (vs, d'') => .ok (v :: vs, d'')
termination_by t n _ => (sizeOf t, n + 2)

end

/-- Modelled from the spec: the SBOR encoder (sbor/src/encode.rs is not
under src/).  Canonical tagged encoding per spec §6 — 1-byte type tag,
4-byte little-endian length prefixes, little-endian integers — in
`with_type` mode, with the byte layout pinned by the decoder above and the
sbor/src/decode.rs test vectors. -/
def encode_value : (t : STy) → Val t → List Nat
  | .unit, _ => []
  | .bool, b => [if b then 1 else 0]
  | .u8, v => [v]
  | .u32, v => toLE 4 v
  | .u64, v => toLE 8 v
  | .option _, none => [0]
  | .option t, some v => 1 :: type_id t :: encode_value t v
  | .tuple2 a b, p =>
    toLE 4 2 ++ (type_id a :: encode_value a p.1) ++ (type_id b :: encode_value b p.2)
  | .bytes, bs => TYPE_U8 :: (toLE 4 bs.length ++ bs)
  | .vec t, vs => type_id t :: (toLE 4 vs.length ++ (vs.map (encode_value t)).flatten)
termination_by t _ => sizeOf t
decreasing_by all_goals (simp_wf <;> omega)

/-- Typed encoding: type byte followed by the value encoding
(`Encode::encode` in `with_type` mode). -/
def sencode (t : STy) (v : Val t) : List Nat := type_id t :: encode_value t v

/-- Modelled from the spec: the top-level typed decode entry point
(`sbor::decode_with_type` / `scrypto_decode`, not under src/): decode one
value, then reject trailing bytes via `Decoder::check_end`
(sbor/src/decode.rs). -/
def decode_top (t : STy) (input : List Nat) : Except DecodeError (Val t) :=
  match sdecode t ⟨input, Bool.true⟩ with
  | .error e => .error e
  | .ok (v, d) =>
    match check_end d with
    | .error e => .error e
    | .ok _ => .ok v

/-- `BTreeSet::insert`, modelled on sorted duplicate-free lists: returns the
new set and whether the element was newly inserted (`true`) or already
present (`false`). -/
def btree_set_insert (x : Nat) : List Nat → List Nat × Bool
  | [] => ([x], Bool.true)
  | y :: ys =>
    if x < y then (x :: y :: ys, Bool.true)
    else if x = y then (y :: ys, Bool.false)
    else
      let r := btree_set_insert x ys
      (y :: r.1, r.2)

/-- `BTreeMap::insert`, modelled on key-sorted association lists: returns
the new map and the previous value at the key, if any. -/
def btree_map_insert (k v : Nat) : List (Nat × Nat) → List (Nat × Nat) × Option Nat
  | [] => ([(k, v)], none)
  | p :: ps =>
    if k < p.1 then ((k, v) :: p :: ps, none)
    else if k = p.1 then ((k, v) :: ps, some p.2)
    else
      let r := btree_map_insert k v ps
      (p :: r.1, r.2)

/-- `HashSet::insert`, modelled on duplicate-free lists in arrival order. -/
def hash_set_insert (x : Nat) (s : List Nat) : List Nat × Bool :=
  if x ∈ s then (s, Bool.false) else (s ++ [x], Bool.true)

/-- `HashMap::insert`, modelled on key-unique association lists in arrival
order: replaces the value and returns the old one when the key exists. -/
def hash_map_insert (k v : Nat) (m : List (Nat × Nat)) : List (Nat × Nat) × Option Nat :=
  match m.find? (fun p => p.1 = k) with
  | some p => (m.map (fun q => if q.1 = k then (k, v) else q), some p.2)
  | none => (m ++ [(k, v)], none)

/-- The element loop of the `BTreeSet<u8>` `decode_value` impl
(sbor/src/decode.rs): decode an element, insert, and fail on a duplicate. -/
def decode_btree_set_elems : Nat → List Nat → Decoder → Except DecodeError (List Nat × Decoder)
  | 0, acc, d => .ok (acc, d)
  | n + 1, acc, d =>
    match read_u8 d with
    | .error e => .error e
    | .ok (x, d') =>
      let r := btree_set_insert x acc
      if r.2 then decode_btree_set_elems n r.1 d'
      else .error (.customError "Duplicate BTreeSet entries")

/-- `BTreeSet<u8>` `Decode::decode` (type byte, element type byte, length,
elements). -/
def decode_btree_set_u8 (d : Decoder) : Except DecodeError (List Nat × Decoder) :=
  match check_type TYPE_SET d with
  | .error e => .error e
  | .ok d0 =>
    match check_type TYPE_U8 d0 with
    | .error e => .error e
    | .ok d1 =>
      match read_len d1 with
      | .error e => .error e
      | .ok (len, d2) => decode_btree_set_elems len [] d2

/-- The element loop of the `BTreeMap<u8, u8>` `decode_value` impl:
decode a key and a value, insert, and fail when the key was present. -/
def decode_btree_map_elems : Nat → List (Nat × Nat) → Decoder →
    Except DecodeError (List (Nat × Nat) × Decoder)
  | 0, acc, d => .ok (acc, d)
  | n + 1, acc, d =>
    match read_u8 d with
    | .error e => .error e
    | .ok (k, d1) =>
      match read_u8 d1 with
      | .error e => .error e
      | .ok (v, d2) =>
        let r := btree_map_insert k v acc
        match r.2 with
        | some _ => .error (.customError "Duplicate BTreeMap entries")
        | none => decode_btree_map_elems n r.1 d2

/-- `BTreeMap<u8, u8>` `Decode::decode` (type byte, key type byte, value
type byte, length, alternating keys and values). -/
def decode_btree_map_u8 (d : Decoder) : Except DecodeError (List (Nat × Nat) × Decoder) :=
  match check_type TYPE_MAP d with
  | .error e => .error e
  | .ok d0 =>
    match check_type TYPE_U8 d0 with
    | .error e => .error e
    | .ok d1 =>
      match check_type TYPE_U8 d1 with
      | .error e => .error e
      | .ok d2 =>
        match read_len d2 with
        | .error e => .error e
        | .ok (len, d3) => decode_btree_map_elems len [] d3

/-- The element loop of the `HashSet<u8>` `decode_value` impl. -/
def decode_hash_set_elems : Nat → List Nat → Decoder → Except DecodeError (List Nat × Decoder)
  | 0, acc, d => .ok (acc, d)
  | n + 1, acc, d =>
    match read_u8 d with
    | .error e => .error e
    | .ok (x, d') =>
      let r := hash_set_insert x acc
      if r.2 then decode_hash_set_elems n r.1 d'
      else .error (.customError "Duplicate HashSet entries")

/-- `HashSet<u8>` `Decode::decode`. -/
def decode_hash_set_u8 (d : Decoder) : Except DecodeError (List Nat × Decoder) :=
  match check_type TYPE_SET d with
  | .error e => .error e
  | .ok d0 =>
    match check_type TYPE_U8 d0 with
    | .error e => .error e
    | .ok d1 =>
      match read_len d1 with
      | .error e => .error e
      | .ok (len, d2) => decode_hash_set_elems len [] d2

/-- The element loop of the `HashMap<u8, u8>` `decode_value` impl. -/
def decode_hash_map_elems : Nat → List (Nat × Nat) → Decoder →
    Except DecodeError (List (Nat × Nat) × Decoder)
  | 0, acc, d => .ok (acc, d)
  | n + 1, acc, d =>
    match read_u8 d with
    | .error e => .error e
    | .ok (k, d1) =>
      match read_u8 d1 with
      | .error e => .error e
      | .ok (v, d2) =>
        let r := hash_map_insert k v acc
        match r.2 with
        | some _ => .error (.customError "Duplicate HashMap entries")
        | none => decode_hash_map_elems n r.1 d2

/-- `HashMap<u8, u8>` `Decode::decode`. -/
def decode_hash_map_u8 (d : Decoder) : Except DecodeError (List (Nat × Nat) × Decoder) :=
  match check_type TYPE_MAP d with
  | .error e => .error e
  | .ok d0 =>
    match check_type TYPE_U8 d0 with
    | .error e => .error e
    | .ok d1 =>
      match check_type TYPE_U8 d1 with
      | .error e => .error e
      | .ok d2 =>
        match read_len d2 with
        | .error e => .error e
        | .ok (len, d3) => decode_hash_map_elems len [] d3

/-- The typed encoding of a `u8` set with the given element sequence, as
pinned by the sbor/src/decode.rs test vectors (`49, 7, len as LE u32,
elements`). -/
def set_enc (es : List Nat) : List Nat :=
  TYPE_SET :: TYPE_U8 :: (toLE 4 es.length ++ es)

/-- The typed encoding of a `u8 → u8` map with the given key-value
sequence (`50, 7, 7, len as LE u32, alternating keys and values`). -/
def map_enc (kvs : List (Nat × Nat)) : List Nat :=
  TYPE_MAP :: TYPE_U8 :: TYPE_U8 ::
    (toLE 4 kvs.length ++ (kvs.map (fun p => [p.1, p.2])).flatten)

end Sbor

namespace Engine

/-- Hashes (32 bytes) and global addresses (27 bytes) are injectively
modelled as natural numbers. -/
abbrev HashM := Nat

abbrev ComponentAddress := Nat

abbrev PackageAddress := Nat

abbrev ResourceAddress := Nat

/-- `VaultId = (Hash, u32)`, from scrypto/src/engine/types.rs. -/
abbrev VaultId := HashM × Nat

/-- `KeyValueStoreId = (Hash, u32)`, from scrypto/src/engine/types.rs. -/
abbrev KeyValueStoreId := HashM × Nat

abbrev BucketId := Nat

abbrev ProofId := Nat

/-- `RENodeId`, from scrypto/src/engine/types.rs. -/
inductive RENodeId
  | bucket (id : BucketId)
  | proof (id : ProofId)
  | keyValueStore (id : KeyValueStoreId)
  | worktop
  | component (addr : ComponentAddress)
  | vault (id : VaultId)
  | resourceManager (addr : ResourceAddress)
  | package (addr : PackageAddress)
  | system
  deriving DecidableEq, Repr

/-- Modelled from the spec: the engine-side `Bucket` (model/bucket.rs is
not under src/) holds a fungible resource container with a liquid amount
and proof-lock counts (§4.5); `is_locked` reports outstanding locks and
`amount` the liquid quantity, in 10^-18 units. -/
structure Bucket where
  resource : ResourceAddress
  amount : Int
  locked_count : Nat
  deriving DecidableEq, Repr

/-- `Bucket::is_locked`. -/
def Bucket.is_locked (b : Bucket) : Bool := b.locked_count ≠ 0

/-- A bucket is empty when its liquid amount is zero. -/
def Bucket.is_empty (b : Bucket) : Bool := b.amount = 0

/-- Modelled from the spec: the engine-side `Proof` (model/proof.rs is not
under src/) is a witness over locked resource; a restricted proof may not
be moved (§3, §4.5).  `Proof::drop` always succeeds. -/
structure Proof where
  resource : ResourceAddress
  amount : Int
  restricted : Bool
  deriving DecidableEq, Repr

/-- `Proof::is_restricted`. -/
def Proof.is_restricted (p : Proof) : Bool := p.restricted

/-- Modelled from the spec: the `Worktop` (model/worktop.rs is not under
src/) buffers resources of the root frame as per-resource amounts (§4.5). -/
structure Worktop where
  resources : List (ResourceAddress × Int)
  deriving DecidableEq, Repr

/-- A worktop is empty when every buffered amount is zero. -/
def Worktop.is_empty (w : Worktop) : Bool := w.resources.all (fun p => p.2 = 0)

/-- Opaque models of the remaining `RENode` payloads; their content is
irrelevant to `verify_can_move` and `try_drop`. -/
structure VaultM where
  resource : ResourceAddress
  amount : Int
  deriving DecidableEq, Repr

structure PreCommittedKeyValueStore where
  entries : List (List Nat × List Nat)
  deriving DecidableEq, Repr

structure Component where
  package_address : PackageAddress
  blueprint_name : String
  state : List Nat
  deriving DecidableEq, Repr

structure ValidatedPackage where
  code : List Nat
  deriving DecidableEq, Repr

structure ResourceManagerM where
  granularity : Nat
  total_supply : Int
  deriving DecidableEq, Repr

structure SystemM where
  epoch : Nat
  deriving DecidableEq, Repr

/-- `DropFailure`, as used by `RENode::try_drop` in
radix-engine/src/engine/values.rs. -/
inductive DropFailure
  | package
  | vault
  | keyValueStore
  | component
  | bucket
  | resource
  | system
  | worktop
  deriving DecidableEq, Repr

/-- The subset of `RuntimeError` produced by `RENode::verify_can_move` and
`RENode::verify_can_persist`. -/
inductive RuntimeError
  | cantMoveLockedBucket
  | cantMoveRestrictedProof
  | valueNotAllowed
  deriving DecidableEq, Repr

/-- `RENode`, from radix-engine/src/engine/values.rs. -/
inductive RENode
  | bucket (b : Bucket)
  | proof (p : Proof)
  | vault (v : VaultM)
  | keyValueStore (s : PreCommittedKeyValueStore)
  | component (c : Component)
  | worktop (w : Worktop)
  | package (p : ValidatedPackage)
  | resource (r : ResourceManagerM)
  | nonFungibles (nfs : List (List Nat))
  | system (s : SystemM)
  deriving DecidableEq, Repr

/-- `RENode::verify_can_move`, from radix-engine/src/engine/values.rs. -/
def RENode.verify_can_move : RENode → Except RuntimeError Unit
  | .bucket b =>
    if b.is_locked then .error .cantMoveLockedBucket else .ok ()
  | .proof p =>
    if p.is_restricted then .error .cantMoveRestrictedProof else .ok ()
  | .keyValueStore _ => .ok ()
  | .component _ => .ok ()
  | .vault _ => .ok ()
  | .resource _ => .ok ()
  | .nonFungibles _ => .ok ()
  | .package _ => .ok ()
  | .worktop _ => .ok ()
  | .system _ => .ok ()

/-- `RENode::verify_can_persist`, from radix-engine/src/engine/values.rs. -/
def RENode.verify_can_persist : RENode → Except RuntimeError Unit
  | .keyValueStore _ => .ok ()
  | .component _ => .ok ()
  | .vault _ => .ok ()
  | .resource _ => .error .valueNotAllowed
  | .nonFungibles _ => .error .valueNotAllowed
  | .package _ => .error .valueNotAllowed
  | .bucket _ => .error .valueNotAllowed
  | .proof _ => .error .valueNotAllowed
  | .worktop _ => .error .valueNotAllowed
  | .system _ => .error .valueNotAllowed

/-- Modelled from the spec: `Worktop::drop` (model/worktop.rs is not under
src/) succeeds exactly when the worktop is empty — "a Worktop must be empty
at transaction end (otherwise abort)" (§3). -/
def Worktop.drop (w : Worktop) : Except DropFailure Unit :=
  if w.is_empty then .ok () else .error .worktop

/-- `RENode::try_drop`, from radix-engine/src/engine/values.rs: every
`Bucket` — regardless of its content — is rejected with
`DropFailure::Bucket`; `Proof::drop` always succeeds; worktops defer to
`Worktop::drop`. -/
def RENode.try_drop : RENode → Except DropFailure Unit
  | .package _ => .error .package
  | .vault _ => .error .vault
  | .keyValueStore _ => .error .keyValueStore
  | .component _ => .error .component
  | .bucket _ => .error .bucket
  | .resource _ => .error .resource
  | .nonFungibles _ => .error .resource
  | .system _ => .error .system
  | .proof _ => .ok ()
  | .worktop w => w.drop

end Engine

namespace Wasm

/-- `WasmError`, from the wasm error module as used by
radix-engine/src/wasm/wasmer.rs.  `InvalidScryptoValue` carries the decode
error; `NoPackageInitExport`-style payloads are dropped.  `send_value`
returns `InvokeError::Error(e)` in the source; the `InvokeError` wrapper
carries no further information on this path and is omitted. -/
inductive WasmError
  | wasmError (s : String)
  | functionNotFound
  | missingReturnData
  | invalidReturnData
  | invalidScryptoValue (e : Sbor.DecodeError)
  | memoryAllocError
  | memoryAccessError
  deriving DecidableEq, Repr

/-- `send_value`, from radix-engine/src/wasm/wasmer.rs.  `mem_size` is
`memory.size().bytes().0`, `alloc_result` the `i32` returned by the guest's
`scrypto_alloc` export (`none` when the call returns no `I32`), `slice` the
payload.  On success the host executes
`ptr::copy(slice.as_ptr(), memory.data_ptr().add(ptr + 4), n)`; the result
records the returned pointer together with the copied address range
`[ptr + 4, ptr + 4 + n)`.  The guard is exactly the source's
`size > ptr && size - ptr >= n`. -/
def send_value (mem_size : Nat) (alloc_result : Option Nat) (slice : List Nat) :
    Except WasmError (Nat × Nat × Nat) :=
  let n := slice.length
  match alloc_result with
  | some ptr =>
    if mem_size > ptr ∧ mem_size - ptr ≥ n then
      .ok (ptr, ptr + 4, ptr + 4 + n)
    else .error .memoryAllocError
  | none => .error .memoryAllocError

/-- `read_value`, from radix-engine/src/wasm/wasmer.rs: reads the 4-byte
little-endian length prefix at `ptr`, then the payload at `ptr + 4`.  The
payload is afterwards parsed by `ScryptoValue::from_slice`; the parse is
orthogonal to the bounds checks, so the model returns the raw payload. -/
def read_value (mem : List Nat) (ptr : Nat) : Except WasmError (List Nat) :=
  let size := mem.length
  if size > ptr ∧ size - ptr ≥ 4 then
    let n := Sbor.fromLE ((mem.drop ptr).take 4)
    if size - ptr - 4 ≥ n then
      .ok ((mem.drop (ptr + 4)).take n)
    else .error .memoryAccessError
  else .error .memoryAccessError

end Wasm

namespace Validator

/-- `WasmValidationError`, as used by
radix-engine/src/engine/wasm_validator.rs (the wasmi payload of
`NoPackageInitExport` is dropped). -/
inductive WasmValidationError
  | invalidModule
  | floatingPointNotAllowed
  | startFunctionNotAllowed
  | noValidMemoryExport
  | noPackageInitExport
  deriving DecidableEq, Repr

/-- The observable properties of a Wasm byte string under the wasmi
library, abstracted as independent outcomes: whether
`Module::from_buffer` succeeds, whether `deny_floating_point` finds a
floating-point opcode, whether `ModuleInstance::new` with the `env`
resolver succeeds, whether the instance has a start function, whether
`export_by_name("memory")` is `Some(ExternVal::Memory(_))`, and whether
`invoke_export("package_init", [], NopExternals)` succeeds.  (On a real
module, a failed instantiation forces a failed `package_init` invocation.) -/
structure WasmModuleProps where
  parses : Bool
  has_floating_point : Bool
  instantiates : Bool
  has_start : Bool
  memory_export_is_memory : Bool
  package_init_invocation_ok : Bool
  deriving DecidableEq, Repr

/-- `validate_module`, from radix-engine/src/engine/wasm_validator.rs:
parse (`InvalidModule`), deny floating point, instantiate
(`InvalidModule` again), check start function, check the `memory` export,
invoke `package_init` — in that source order. -/
def validate_module (m : WasmModuleProps) : Except WasmValidationError Unit :=
  if !m.parses then .error .invalidModule
  else if m.has_floating_point then .error .floatingPointNotAllowed
  else if !m.instantiates then .error .invalidModule
  else if m.has_start then .error .startFunctionNotAllowed
  else if !m.memory_export_is_memory then .error .noValidMemoryExport
  else if !m.package_init_invocation_ok then .error .noPackageInitExport
  else .ok ()

/-- The claim's reading of validation, following the spec's words (§4.3):
five conditions — parse, no floating-point, no start function, memory
export, successful `package_init` invocation — checked in that order, with
no separate instantiation step. -/
def validate_module_per_claim (m : WasmModuleProps) : Except WasmValidationError Unit :=
  if !m.parses then .error .invalidModule
  else if m.has_floating_point then .error .floatingPointNotAllowed
  else if m.has_start then .error .startFunctionNotAllowed
  else if !m.memory_export_is_memory then .error .noValidMemoryExport
  else if !m.package_init_invocation_ok then .error .noPackageInitExport
  else .ok ()

end Validator

namespace Resource

/-- Modelled from the spec: `Decimal` (scrypto/src/math, not under src/) is
a fixed-point number with 18 decimal places, represented by its integer
count of 10^-18 units. -/
structure Decimal where
  attos : Int
  deriving DecidableEq, Repr

/-- `ResourceManagerError`, subset relevant to minting (§4.5, §7). -/
inductive ResourceManagerError
  | invalidAmount (amount : Decimal) (granularity : Nat)
  | maxMintAmountExceeded
  | resourceTypeMismatch
  deriving DecidableEq, Repr

/-- Modelled from the spec: the fungible `ResourceManager`
(model/resource_manager.rs is not under src/) holds the divisibility
`granularity` and the running total supply (§4.5). -/
structure ResourceManager where
  granularity : Nat
  total_supply : Decimal
  deriving DecidableEq, Repr

/-- The maximum total supply, 10^18 whole units (§4.5), in 10^-18 units. -/
def MAX_TOTAL_SUPPLY_ATTOS : Int := 10 ^ 36

/-- Modelled from the spec: minting on a fungible `ResourceManager`
(model/resource_manager.rs is not under src/): "mint amount must be a
multiple of `10^-granularity`; mint is rejected with `InvalidAmount`
otherwise; total supply cannot exceed `10^18` (`MaxMintAmountExceeded`)"
(§4.5); behaviour at the boundary pinned by the tests in
radix-engine/tests/resource.rs. -/
def mint (rm : ResourceManager) (amount : Decimal) :
    Except ResourceManagerError ResourceManager :=
  if amount.attos % (10 : Int) ^ (18 - rm.granularity) ≠ 0 then
    .error (.invalidAmount amount rm.granularity)
  else if rm.total_supply.attos + amount.attos > MAX_TOTAL_SUPPLY_ATTOS then
    .error .maxMintAmountExceeded
  else
    .ok ⟨rm.granularity, ⟨rm.total_supply.attos + amount.attos⟩⟩

/-- Modelled from the spec: a failed instruction commits as a failure with
no state change other than the fee (§7): on a mint error the resource
manager substate is left untouched and the error is reported. -/
def commit_mint (rm : ResourceManager) (amount : Decimal) :
    ResourceManager × Option ResourceManagerError :=
  match mint rm amount with
  | .ok rm' => (rm', none)
  | .error e => (rm, some e)

end Resource

namespace Kernel

/-- The subset of `KernelError` relevant to stored-node checks (§7). -/
inductive KernelError
  | storedNodeRemoved (id : Engine.RENodeId)
  | rENodeNotFound (id : Engine.RENodeId)
  deriving DecidableEq, Repr

/-- Modelled from the spec: the kernel's stored-write check (the call-frame
track, not under src/): "if a write replaces a value that previously
referenced a Vault/KV with one that does not, the kernel checks
`StoredNodeRemoved` and aborts" (§4.4, Data instructions). -/
def verify_stored_ids (old_ids new_ids : List Engine.RENodeId) : Except KernelError Unit :=
  match old_ids.find? (fun id => !new_ids.contains id) with
  | some id => .error (.storedNodeRemoved id)
  | none => .ok ()

/-- The stored state of one component: the node ids referenced by its
committed state substate, and the vault substates present in the store. -/
structure ComponentStore where
  component_state_ids : List Engine.RENodeId
  vault_substates : List Engine.VaultId
  deriving DecidableEq, Repr

/-- Modelled from the spec: committing a write of the component state whose
value references exactly `new_ids`: on a failed stored-node check the
transaction commits as a failure and the store is unchanged (§4.4, §7). -/
def write_component_state (st : ComponentStore) (new_ids : List Engine.RENodeId) :
    ComponentStore × Option KernelError :=
  match verify_stored_ids st.component_state_ids new_ids with
  | .ok _ => ({ st with component_state_ids := new_ids }, none)
  | .error e => (st, some e)

end Kernel

namespace MemoryDb

/-- `SubstateId`, from scrypto/src/engine/types.rs, with the 27-byte
addresses, 32-byte hashes and machine counters injectively modelled as
bounded natural numbers. -/
inductive SubstateId
  | componentInfo (addr : Nat)
  | package (addr : Nat)
  | resourceManager (addr : Nat)
  | nonFungibleSpace (addr : Nat)
  | nonFungible (addr : Nat) (id : List Nat)
  | keyValueStoreSpace (id : Nat × Nat)
  | keyValueStoreEntry (id : Nat × Nat) (key : List Nat)
  | vault (id : Nat × Nat)
  | componentState (addr : Nat)
  | system
  | bucket (id : Nat)
  | proof (id : Nat)
  | worktop
  deriving DecidableEq, Repr

/-- Well-formedness of a modelled `SubstateId`: every numeric field fits in
8 bytes and every byte-string length in 4 bytes, mirroring the fixed-width
fields of the real type. -/
def SubstateId.wfId : SubstateId → Bool
  | .componentInfo a => a < 256 ^ 8
  | .package a => a < 256 ^ 8
  | .resourceManager a => a < 256 ^ 8
  | .nonFungibleSpace a => a < 256 ^ 8
  | .nonFungible a id => a < 256 ^ 8 && id.length < 256 ^ 4
  | .keyValueStoreSpace i => i.1 < 256 ^ 8 && i.2 < 256 ^ 8
  | .keyValueStoreEntry i key => i.1 < 256 ^ 8 && i.2 < 256 ^ 8 && key.length < 256 ^ 4
  | .vault i => i.1 < 256 ^ 8 && i.2 < 256 ^ 8
  | .componentState a => a < 256 ^ 8
  | .system => true
  | .bucket n => n < 256 ^ 8
  | .proof n => n < 256 ^ 8
  | .worktop => true

/-- Modelled from the spec: `scrypto_encode` on `SubstateId` (the
derive-generated SBOR codec, not under src/) is some injective byte
encoding; we use a variant tag followed by fixed-width little-endian
fields, with byte strings length-prefixed. -/
def encode_substate_id : SubstateId → List Nat
  | .componentInfo a => 0 :: Sbor.toLE 8 a
  | .package a => 1 :: Sbor.toLE 8 a
  | .resourceManager a => 2 :: Sbor.toLE 8 a
  | .nonFungibleSpace a => 3 :: Sbor.toLE 8 a
  | .nonFungible a id => 4 :: (Sbor.toLE 8 a ++ Sbor.toLE 4 id.length ++ id)
  | .keyValueStoreSpace i => 5 :: (Sbor.toLE 8 i.1 ++ Sbor.toLE 8 i.2)
  | .keyValueStoreEntry i key =>
    6 :: (Sbor.toLE 8 i.1 ++ Sbor.toLE 8 i.2 ++ Sbor.toLE 4 key.length ++ key)
  | .vault i => 7 :: (Sbor.toLE 8 i.1 ++ Sbor.toLE 8 i.2)
  | .componentState a => 8 :: Sbor.toLE 8 a
  | .system => [9]
  | .bucket n => 10 :: Sbor.toLE 8 n
  | .proof n => 11 :: Sbor.toLE 8 n
  | .worktop => [12]

/-- `OutputValue` bundles a substate with its version
(radix-engine ledger module); the substate payload is abstracted to its
encoded bytes. -/
structure OutputValue where
  substate : List Nat
  version : Nat
  deriving DecidableEq, Repr

/-- Well-formed output value: version fits in a `u32`-sized field and the
payload length is addressable. -/
def OutputValue.wfVal (v : OutputValue) : Bool :=
  v.version < 256 ^ 4 && v.substate.length < 256 ^ 4

/-- Modelled from the spec: `scrypto_encode` on `OutputValue` (not under
src/): version, payload length, payload. -/
def encode_output_value (v : OutputValue) : List Nat :=
  Sbor.toLE 4 v.version ++ Sbor.toLE 4 v.substate.length ++ v.substate

/-- Modelled from the spec: `scrypto_decode` on `OutputValue` bytes, the
left inverse of `encode_output_value`. -/
def decode_output_value (bs : List Nat) : Option OutputValue :=
  if bs.length < 8 then none
  else
    let ver := Sbor.fromLE (bs.take 4)
    let len := Sbor.fromLE ((bs.drop 4).take 4)
    let rest := bs.drop 8
    if rest.length = len then some ⟨rest, ver⟩ else none

/-- `SerializedInMemorySubstateStore`, from
radix-engine-stores/src/memory_db.rs: a `HashMap<Vec<u8>, Vec<u8>>` of
encoded substates (modelled as an association list with most-recent-first
lookup) and a `HashSet<Vec<u8>>` of root keys. -/
structure SerializedInMemorySubstateStore where
  substates : List (List Nat × List Nat)
  roots : List (List Nat)
  deriving DecidableEq, Repr

/-- `SerializedInMemorySubstateStore::new`. -/
def emptyStore : SerializedInMemorySubstateStore := ⟨[], []⟩

/-- `HashMap::get`, on the association-list model. -/
def al_get (k : List Nat) (m : List (List Nat × List Nat)) : Option (List Nat) :=
  (m.find? (fun p => p.1 = k)).map (fun p => p.2)

/-- `get_substate`, from memory_db.rs: look the encoded id up and decode.
The source `unwrap`s the decode; the store only ever holds encoded values,
so the model returns the decoded value (or `none` for a missing key). -/
def get_substate (s : SerializedInMemorySubstateStore) (id : SubstateId) : Option OutputValue :=
  match al_get (encode_substate_id id) s.substates with
  | none => none
  | some bs => decode_output_value bs

/-- `put_substate`, from memory_db.rs: `HashMap::insert` of the encoded
pair (insertion shadows any previous binding of the key). -/
def put_substate (s : SerializedInMemorySubstateStore) (id : SubstateId) (v : OutputValue) :
    SerializedInMemorySubstateStore :=
  { s with substates := (encode_substate_id id, encode_output_value v) :: s.substates }

/-- `is_root`, from memory_db.rs. -/
def is_root (s : SerializedInMemorySubstateStore) (id : SubstateId) : Bool :=
  s.roots.contains (encode_substate_id id)

/-- `set_root`, from memory_db.rs (`HashSet::insert`; a duplicate insert
leaves the set's membership unchanged). -/
def set_root (s : SerializedInMemorySubstateStore) (id : SubstateId) :
    SerializedInMemorySubstateStore :=
  { s with roots := encode_substate_id id :: s.roots }

/-- A history of store operations. -/
inductive StoreOp
  | put (id : SubstateId) (v : OutputValue)
  | setRoot (id : SubstateId)
  deriving DecidableEq, Repr

def StoreOp.wfOp : StoreOp → Bool
  | .put id v => id.wfId && v.wfVal
  | .setRoot id => id.wfId

def apply_op (s : SerializedInMemorySubstateStore) : StoreOp → SerializedInMemorySubstateStore
  | .put id v => put_substate s id v
  | .setRoot id => set_root s id

/-- Running a history against the fresh store. -/
def run_ops (ops : List StoreOp) : SerializedInMemorySubstateStore :=
  ops.foldl apply_op emptyStore

/-- The value of the last `put` to `id` in a history, if any. -/
def last_put (ops : List StoreOp) (id : SubstateId) : Option OutputValue :=
  (ops.filterMap (fun op =>
    match op with
    | .put i v => if i = id then some v else none
    | .setRoot _ => none)).getLast?

end MemoryDb

namespace ScryptoVal

/-- The custom (Scrypto-specific) SBOR values, pre-parsed: each constructor
corresponds to a `ScryptoType` payload already past the `try_from` parse in
`ScryptoCustomValueChecker::visit` (scrypto/src/values.rs); the claim is
about well-formed payloads, so the parse-failure channels are not
modelled. -/
inductive CustomLeaf
  | packageAddr (a : Nat)
  | componentAddr (a : Nat)
  | component (a : Nat)
  | keyValueStore (id : Nat × Nat)
  | hash (h : Nat)
  | decimal (d : Int)
  | bucket (id : Nat)
  | proof (id : Nat)
  | vault (id : Nat × Nat)
  | nonFungibleId (bs : List Nat)
  | resourceAddr (a : Nat)
  | expression (s : String)
  deriving DecidableEq, Repr

/-- An SBOR value DOM (`sbor::any::Value`).  Every non-custom composite
variant contributes only its children to the traversal, so they are all
represented by `struct`/`list`; primitives carry no custom values. -/
inductive SVal
  | unit
  | u8 (n : Nat)
  | str (s : String)
  | struct (fields : List SVal)
  | list (elems : List SVal)
  | custom (c : CustomLeaf)
  deriving Repr

mutual

/-- The custom values of a DOM in depth-first order.  Modelled from the
spec: `traverse_any` (sbor/src/any.rs, not under src/) walks the value
depth-first and calls the visitor on each custom value. -/
def custom_leaves : SVal → List CustomLeaf
  | .unit => []
  | .u8 _ => []
  | .str _ => []
  | .struct fields => custom_leaves_list fields
  | .list elems => custom_leaves_list elems
  | .custom c => [c]

/-- The custom values of a value sequence, left to right. -/
def custom_leaves_list : List SVal → List CustomLeaf
  | [] => []
  | v :: vs => custom_leaves v ++ custom_leaves_list vs

end

/-- `ScryptoCustomValueChecker` state (scrypto/src/values.rs); hash
collections are modelled as lists, with `HashSet`-style deduplicating
insert for the reference collections. -/
structure Checker where
  expressions : List String
  buckets : List Nat
  proofs : List Nat
  vaults : List (Nat × Nat)
  kv_stores : List (Nat × Nat)
  components : List Nat
  ref_components : List Nat
  resource_addresses : List Nat
  deriving DecidableEq, Repr

/-- `ScryptoCustomValueChecker::new`. -/
def Checker.empty : Checker := ⟨[], [], [], [], [], [], [], []⟩

/-- The only checker error reachable on pre-parsed payloads
(`ScryptoCustomValueCheckError::DuplicateIds`). -/
inductive CheckErr
  | duplicateIds
  deriving DecidableEq, Repr

/-- The Rust `Debug` rendering used by `ScryptoValue::from_value` when
wrapping checker errors. -/
def debug_str : CheckErr → String
  | .duplicateIds => "DuplicateIds"

/-- `HashSet::insert` ignoring the result (membership-deduplicating). -/
def set_insert {α : Type} [DecidableEq α] (x : α) (s : List α) : List α :=
  if x ∈ s then s else x :: s

/-- `ScryptoCustomValueChecker::visit`, from scrypto/src/values.rs: buckets,
proofs, vaults, key-value stores and owned components are checked for
duplicates; referenced component addresses and resource addresses are
collected without a duplicate check; the remaining types only validate
their payload. -/
def visit (st : Checker) : CustomLeaf → Except CheckErr Checker
  | .packageAddr _ => .ok st
  | .componentAddr a => .ok { st with ref_components := set_insert a st.ref_components }
  | .component a =>
    if a ∈ st.components then .error .duplicateIds
    else .ok { st with components := a :: st.components }
  | .keyValueStore id =>
    if id ∈ st.kv_stores then .error .duplicateIds
    else .ok { st with kv_stores := id :: st.kv_stores }
  | .hash _ => .ok st
  | .decimal _ => .ok st
  | .bucket id =>
    if id ∈ st.buckets then .error .duplicateIds
    else .ok { st with buckets := id :: st.buckets }
  | .proof id =>
    if id ∈ st.proofs then .error .duplicateIds
    else .ok { st with proofs := id :: st.proofs }
  | .vault id =>
    if id ∈ st.vaults then .error .duplicateIds
    else .ok { st with vaults := id :: st.vaults }
  | .nonFungibleId _ => .ok st
  | .resourceAddr a => .ok { st with resource_addresses := set_insert a st.resource_addresses }
  | .expression s => .ok { st with expressions := st.expressions ++ [s] }

/-- The visitor folded over the depth-first custom values
(`traverse_any` composed with the checker). -/
def run_checker : List CustomLeaf → Checker → Except CheckErr Checker
  | [], st => .ok st
  | c :: cs, st =>
    match visit st c with
    | .error e => .error e
    | .ok st' => run_checker cs st'

/-- The id collections of a `ScryptoValue` (scrypto/src/values.rs). -/
structure ScryptoValueIds where
  bucket_ids : List Nat
  proof_ids : List Nat
  vault_ids : List (Nat × Nat)
  kv_store_ids : List (Nat × Nat)
  owned_component_addresses : List Nat
  deriving DecidableEq, Repr

/-- `ScryptoValue::from_value`, from scrypto/src/values.rs: traverse with
the checker, mapping a checker error `e` to
`DecodeError::CustomError(format!("{:?}", e))`, and on success collect the
checker's id collections.  (`ScryptoValue::from_slice` is `decode_any`
followed by `from_value`; the decode stage is orthogonal to the duplicate
check.) -/
def from_value (v : SVal) : Except Sbor.DecodeError ScryptoValueIds :=
  match run_checker (custom_leaves v) Checker.empty with
  | .error e => .error (.customError (debug_str e))
  | .ok st => .ok ⟨st.buckets, st.proofs, st.vaults, st.kv_stores, st.components⟩

/-- The bucket ids occurring in a leaf sequence. -/
def bucket_ids_of (ls : List CustomLeaf) : List Nat :=
  ls.filterMap (fun c => match c with | .bucket id => some id | _ => none)

def proof_ids_of (ls : List CustomLeaf) : List Nat :=
  ls.filterMap (fun c => match c with | .proof id => some id | _ => none)

def vault_ids_of (ls : List CustomLeaf) : List (Nat × Nat) :=
  ls.filterMap (fun c => match c with | .vault id => some id | _ => none)

def kv_ids_of (ls : List CustomLeaf) : List (Nat × Nat) :=
  ls.filterMap (fun c => match c with | .keyValueStore id => some id | _ => none)

def component_ids_of (ls : List CustomLeaf) : List Nat :=
  ls.filterMap (fun c => match c with | .component a => some a | _ => none)

end ScryptoVal

/-!
## Theorems

Helper lemmas first, then one theorem per claim (with witnesses and
counterexamples where required).
-/

namespace Sbor

theorem read_u8_cons (b : Nat) (bs : List Nat) (wt : Bool) :
    read_u8 ⟨b :: bs, wt⟩ = .ok (b, ⟨bs, wt⟩) := rfl

theorem read_bytes_append (xs rest : List Nat) (wt : Bool) :
    read_bytes xs.length ⟨xs ++ rest, wt⟩ = .ok (xs, ⟨rest, wt⟩) := by
  simp [read_bytes, remaining]

theorem read_len_append (n : Nat) (hn : n < 2 ^ 32) (rest : List Nat) (wt : Bool) :
    read_len ⟨toLE 4 n ++ rest, wt⟩ = .ok (n, ⟨rest, wt⟩) := by
  have hlen : (toLE 4 n).length = 4 := length_toLE 4 n
  have h4 : read_bytes 4 ⟨toLE 4 n ++ rest, wt⟩ = .ok (toLE 4 n, ⟨rest, wt⟩) := by
    have := read_bytes_append (toLE 4 n) rest wt
    rwa [hlen] at this
  have hle : fromLE (toLE 4 n) = n := by
    apply fromLE_toLE
    calc n < 2 ^ 32 := hn
      _ = 256 ^ 4 := by norm_num
  simp [read_len, h4, hle]

theorem check_type_cons (e : Nat) (bs : List Nat) :
    check_type e ⟨e :: bs, Bool.true⟩ = .ok ⟨bs, Bool.true⟩ := by
  simp [check_type, read_type, read_u8]

theorem decode_value_encode (t : STy) :
    ∀ (v : Val t), wf t v = true → ∀ (rest : List Nat),
      decode_value t ⟨encode_value t v ++ rest, Bool.true⟩ = .ok (v, ⟨rest, Bool.true⟩) := by
  induction t with
  | unit =>
    intro v _ rest
    simp [encode_value, decode_value]
  | bool =>
    intro v _ rest
    cases v <;> simp [encode_value, decode_value, read_u8]
  | u8 =>
    intro v _ rest
    simp [encode_value, decode_value, read_u8]
  | u32 =>
    intro v hv rest
    have hb : read_bytes 4 ⟨toLE 4 v ++ rest, Bool.true⟩ = .ok (toLE 4 v, ⟨rest, Bool.true⟩) := by
      have := read_bytes_append (toLE 4 v) rest Bool.true
      rwa [length_toLE] at this
    have hv' : v < 2 ^ 32 := by simpa [wf] using hv
    have hle : fromLE (toLE 4 v) = v :=
      fromLE_toLE 4 v (by simpa [show (256 : Nat) ^ 4 = 2 ^ 32 from by norm_num] using hv')
    simp [encode_value, decode_value, hb, hle]
  | u64 =>
    intro v hv rest
    have hb : read_bytes 8 ⟨toLE 8 v ++ rest, Bool.true⟩ = .ok (toLE 8 v, ⟨rest, Bool.true⟩) := by
      have := read_bytes_append (toLE 8 v) rest Bool.true
      rwa [length_toLE] at this
    have hv' : v < 2 ^ 64 := by simpa [wf] using hv
    have hle : fromLE (toLE 8 v) = v :=
      fromLE_toLE 8 v (by simpa [show (256 : Nat) ^ 8 = 2 ^ 64 from by norm_num] using hv')
    simp [encode_value, decode_value, hb, hle]
  | option t ih =>
    intro v hv rest
    cases v with
    | none => simp [encode_value, decode_value, read_u8]
    | some x =>
      have hx : wf t x = true := by simpa [wf] using hv
      simp [encode_value, decode_value, read_u8, sdecode, check_type_cons, ih x hx rest]
  | tuple2 a b iha ihb =>
    intro v hv rest
    obtain ⟨va, vb⟩ := v
    have hwf : wf a va = true ∧ wf b vb = true := by simpa [wf] using hv
    have hlen : read_len ⟨toLE 4 2 ++
        (type_id a :: (encode_value a va ++ (type_id b :: (encode_value b vb ++ rest)))),
        Bool.true⟩ = .ok (2, ⟨type_id a :: (encode_value a va ++
          (type_id b :: (encode_value b vb ++ rest))), Bool.true⟩) :=
      read_len_append 2 (by norm_num) _ Bool.true
    simp only [encode_value, List.append_assoc, List.cons_append]
    simp [decode_value, hlen, sdecode, check_type_cons, iha va hwf.1 _, ihb vb hwf.2 rest]
  | bytes =>
    intro v hv rest
    have hlen : v.length < 2 ^ 32 := by
      have := hv
      simp [wf] at this
      exact this.2
    have hrl : read_len ⟨toLE 4 v.length ++ (v ++ rest), Bool.true⟩ =
        .ok (v.length, ⟨v ++ rest, Bool.true⟩) := read_len_append _ hlen _ Bool.true
    simp only [encode_value, List.cons_append, List.append_assoc]
    simp [decode_value, check_type_cons, hrl, read_bytes_append]
  | vec t ih =>
    intro vs hv rest
    have hv' : (∀ x ∈ vs, wf t x = true) ∧ vs.length < 2 ^ 32 := by
      simpa [wf, List.all_eq_true] using hv
    have helems : ∀ (l : List (Val t)), (∀ x ∈ l, wf t x = true) → ∀ (r : List Nat),
        decode_elems t l.length ⟨(l.map (encode_value t)).flatten ++ r, Bool.true⟩
          = .ok (l, ⟨r, Bool.true⟩) := by
      intro l
      induction l with
      | nil =>
        intro _ r
        simp [decode_elems]
      | cons x xs ihx =>
        intro hall r
        have hx := hall x (by simp)
        have hxs : ∀ y ∈ xs, wf t y = true := fun y hy => hall y (by simp [hy])
        have h1 := ih x hx ((xs.map (encode_value t)).flatten ++ r)
        simp only [List.map_cons, List.flatten_cons, List.append_assoc, List.length_cons]
        simp [decode_elems, h1, ihx hxs r]
    have hrl : read_len ⟨toLE 4 vs.length ++ ((vs.map (encode_value t)).flatten ++ rest),
        Bool.true⟩ = .ok (vs.length, ⟨(vs.map (encode_value t)).flatten ++ rest, Bool.true⟩) :=
      read_len_append _ hv'.2 _ Bool.true
    simp only [encode_value, List.cons_append, List.append_assoc]
    simp [decode_value, check_type_cons, hrl, helems vs hv'.1 rest]

theorem sdecode_encode (t : STy) (v : Val t) (hv : wf t v = true) (rest : List Nat) :
    sdecode t ⟨sencode t v ++ rest, Bool.true⟩ = .ok (v, ⟨rest, Bool.true⟩) := by
  simp [sencode, sdecode, check_type_cons, decode_value_encode t v hv rest]

end Sbor

namespace Sbor

/-- C5: For every SBOR-encodable value `v` (of the embedded universe,
well-formed for its machine widths), decoding the encoding of `v` yields a
value equal to `v`, and decoding an input that has unread bytes remaining
after the value fails with `NotAllBytesUsed(n)` where `n` is the number of
unread (trailing) bytes. -/
theorem claim5_roundtrip_rejects_trailing (t : STy) (v : Val t) (hv : wf t v = true)
    (extra : List Nat) (hx : extra ≠ []) :
    decode_top t (sencode t v) = .ok v ∧
    decode_top t (sencode t v ++ extra) = .error (.notAllBytesUsed extra.length) := by
  constructor
  · have h : sdecode t ⟨sencode t v, Bool.true⟩ = .ok (v, ⟨[], Bool.true⟩) := by
      simpa using sdecode_encode t v hv []
    simp [decode_top, h, check_end, remaining]
  · have h := sdecode_encode t v hv extra
    have hlen : extra.length ≠ 0 := fun hc => hx (List.eq_nil_of_length_eq_zero hc)
    simp [decode_top, h, check_end, remaining, hlen]

/-- Witness for C5 at `v = 7 : u32` with one trailing byte. -/
theorem claim5_witness :
    decode_top .u32 (sencode .u32 7) = .ok 7 ∧
    decode_top .u32 (sencode .u32 7 ++ [1]) = .error (.notAllBytesUsed 1) :=
  claim5_roundtrip_rejects_trailing .u32 7 (by simp [wf]) [1] (by decide)

end Sbor

namespace Sbor

theorem btree_set_insert_of_mem (x : Nat) (s : List Nat) (hs : s.Sorted (· < ·))
    (hx : x ∈ s) : btree_set_insert x s = (s, Bool.false) := by
  induction s with
  | nil => cases hx
  | cons y ys ih =>
    rw [List.sorted_cons] at hs
    rcases List.mem_cons.mp hx with rfl | hmem
    · simp [btree_set_insert]
    · have hyx : y < x := hs.1 x hmem
      have hnlt : ¬ x < y := by omega
      have hne : ¬ x = y := by omega
      simp [btree_set_insert, hnlt, hne, ih hs.2 hmem]

theorem btree_set_insert_of_not_mem (x : Nat) (s : List Nat) (hs : s.Sorted (· < ·))
    (hx : x ∉ s) :
    (btree_set_insert x s).2 = Bool.true ∧
    (btree_set_insert x s).1.Perm (x :: s) ∧
    (btree_set_insert x s).1.Sorted (· < ·) := by
  induction s with
  | nil => simp [btree_set_insert]
  | cons y ys ih =>
    rw [List.sorted_cons] at hs
    have hxy : ¬ x = y := fun h => hx (h ▸ List.mem_cons_self x ys)
    by_cases hlt : x < y
    · have heq : btree_set_insert x (y :: ys) = (x :: y :: ys, Bool.true) := by
        simp [btree_set_insert, hlt]
      refine ⟨by simp [heq], by simp [heq], ?_⟩
      rw [heq]
      rw [List.sorted_cons]
      refine ⟨fun b hb => ?_, by rw [List.sorted_cons]; exact hs⟩
      rcases List.mem_cons.mp hb with rfl | hb'
      · exact hlt
      · exact lt_trans hlt (hs.1 b hb')
    · have hyx : y < x := by
        rcases Nat.lt_trichotomy x y with h | h | h
        · exact absurd h hlt
        · exact absurd h hxy
        · exact h
      have hxys : x ∉ ys := fun h => hx (List.mem_cons_of_mem _ h)
      obtain ⟨h1, h2, h3⟩ := ih hs.2 hxys
      have heq : btree_set_insert x (y :: ys) =
          (y :: (btree_set_insert x ys).1, (btree_set_insert x ys).2) := by
        simp [btree_set_insert, hlt, hxy]
      refine ⟨by simp [heq, h1], ?_, ?_⟩
      · rw [heq]
        exact (h2.cons y).trans (List.Perm.swap x y ys)
      · rw [heq]
        rw [List.sorted_cons]
        refine ⟨fun b hb => ?_, h3⟩
        rcases List.mem_cons.mp (h2.mem_iff.mp hb) with rfl | hb'
        · exact hyx
        · exact hs.1 b hb'

theorem decode_btree_set_elems_ok (es : List Nat) :
    ∀ (acc : List Nat), acc.Sorted (· < ·) → es.Nodup → (∀ x ∈ es, x ∉ acc) →
    ∀ (rest : List Nat) (wt : Bool),
    ∃ out, decode_btree_set_elems es.length acc ⟨es ++ rest, wt⟩ = .ok (out, ⟨rest, wt⟩)
      ∧ out.Perm (es ++ acc) := by
  induction es with
  | nil =>
    intro acc _ _ _ rest wt
    exact ⟨acc, by simp [decode_btree_set_elems], by simp⟩
  | cons x es ih =>
    intro acc hacc hnd hdisj rest wt
    have hx : x ∉ acc := hdisj x (by simp)
    obtain ⟨h1, h2, h3⟩ := btree_set_insert_of_not_mem x acc hacc hx
    rw [List.nodup_cons] at hnd
    have hdisj' : ∀ y ∈ es, y ∉ (btree_set_insert x acc).1 := by
      intro y hy hyin
      rcases List.mem_cons.mp (h2.mem_iff.mp hyin) with rfl | hyacc
      · exact hnd.1 hy
      · exact hdisj y (List.mem_cons_of_mem _ hy) hyacc
    obtain ⟨out, hout, hperm⟩ := ih (btree_set_insert x acc).1 h3 hnd.2 hdisj' rest wt
    refine ⟨out, ?_, ?_⟩
    · simp only [List.cons_append, List.length_cons]
      simp [decode_btree_set_elems, read_u8, h1, hout]
    · exact hperm.trans ((List.Perm.append_left es h2).trans List.perm_middle)

theorem decode_btree_set_elems_dup (es : List Nat) :
    ∀ (acc : List Nat), acc.Sorted (· < ·) →
    ¬ (es.Nodup ∧ ∀ x ∈ es, x ∉ acc) →
    ∀ (rest : List Nat) (wt : Bool),
    decode_btree_set_elems es.length acc ⟨es ++ rest, wt⟩ =
      .error (.customError "Duplicate BTreeSet entries") := by
  induction es with
  | nil =>
    intro acc _ hcon rest wt
    exact absurd ⟨List.nodup_nil, by simp⟩ hcon
  | cons x es ih =>
    intro acc hacc hcon rest wt
    by_cases hx : x ∈ acc
    · have heq := btree_set_insert_of_mem x acc hacc hx
      simp only [List.cons_append, List.length_cons]
      simp [decode_btree_set_elems, read_u8, heq]
    · obtain ⟨h1, h2, h3⟩ := btree_set_insert_of_not_mem x acc hacc hx
      have hcon' : ¬ (es.Nodup ∧ ∀ y ∈ es, y ∉ (btree_set_insert x acc).1) := by
        rintro ⟨hnd, hdis⟩
        apply hcon
        refine ⟨List.nodup_cons.mpr ⟨fun hxe => ?_, hnd⟩, fun y hy => ?_⟩
        · exact hdis x hxe (h2.mem_iff.mpr (List.mem_cons_self x acc))
        · rcases List.mem_cons.mp hy with rfl | hyes
          · exact hx
          · exact fun hyacc => hdis y hyes (h2.mem_iff.mpr (List.mem_cons_of_mem _ hyacc))
      simp only [List.cons_append, List.length_cons]
      simp [decode_btree_set_elems, read_u8, h1, ih _ h3 hcon' rest wt]

theorem decode_hash_set_elems_ok (es : List Nat) :
    ∀ (acc : List Nat), es.Nodup → (∀ x ∈ es, x ∉ acc) →
    ∀ (rest : List Nat) (wt : Bool),
    decode_hash_set_elems es.length acc ⟨es ++ rest, wt⟩ = .ok (acc ++ es, ⟨rest, wt⟩) := by
  induction es with
  | nil =>
    intro acc _ _ rest wt
    simp [decode_hash_set_elems]
  | cons x es ih =>
    intro acc hnd hdisj rest wt
    have hx : x ∉ acc := hdisj x (by simp)
    rw [List.nodup_cons] at hnd
    have hdisj' : ∀ y ∈ es, y ∉ acc ++ [x] := by
      intro y hy
      simp only [List.mem_append, List.mem_singleton]
      rintro (hyacc | rfl)
      · exact hdisj y (List.mem_cons_of_mem _ hy) hyacc
      · exact hnd.1 hy
    have hins : hash_set_insert x acc = (acc ++ [x], Bool.true) := by
      simp [hash_set_insert, hx]
    simp only [List.cons_append, List.length_cons]
    simp [decode_hash_set_elems, read_u8, hins, ih (acc ++ [x]) hnd.2 hdisj' rest wt]

theorem decode_hash_set_elems_dup (es : List Nat) :
    ∀ (acc : List Nat), ¬ (es.Nodup ∧ ∀ x ∈ es, x ∉ acc) →
    ∀ (rest : List Nat) (wt : Bool),
    decode_hash_set_elems es.length acc ⟨es ++ rest, wt⟩ =
      .error (.customError "Duplicate HashSet entries") := by
  induction es with
  | nil =>
    intro acc hcon rest wt
    exact absurd ⟨List.nodup_nil, by simp⟩ hcon
  | cons x es ih =>
    intro acc hcon rest wt
    by_cases hx : x ∈ acc
    · have hins : hash_set_insert x acc = (acc, Bool.false) := by
        simp [hash_set_insert, hx]
      simp only [List.cons_append, List.length_cons]
      simp [decode_hash_set_elems, read_u8, hins]
    · have hins : hash_set_insert x acc = (acc ++ [x], Bool.true) := by
        simp [hash_set_insert, hx]
      have hcon' : ¬ (es.Nodup ∧ ∀ y ∈ es, y ∉ acc ++ [x]) := by
        rintro ⟨hnd, hdis⟩
        apply hcon
        refine ⟨List.nodup_cons.mpr ⟨fun hxe => ?_, hnd⟩, fun y hy => ?_⟩
        · exact hdis x hxe (by simp)
        · rcases List.mem_cons.mp hy with rfl | hyes
          · exact hx
          · exact fun hyacc => hdis y hyes (by simp [hyacc])
      simp only [List.cons_append, List.length_cons]
      simp [decode_hash_set_elems, read_u8, hins, ih _ hcon' rest wt]

theorem btree_map_insert_of_mem (k v : Nat) (m : List (Nat × Nat))
    (hm : (m.map Prod.fst).Sorted (· < ·)) (hk : k ∈ m.map Prod.fst) :
    ∃ old, (btree_map_insert k v m).2 = some old := by
  induction m with
  | nil => simp at hk
  | cons p ps ih =>
    simp only [List.map_cons, List.sorted_cons] at hm
    rw [List.map_cons] at hk
    rcases List.mem_cons.mp hk with rfl | hmem
    · exact ⟨p.2, by simp [btree_map_insert]⟩
    · have hpk : p.1 < k := hm.1 k hmem
      have hnlt : ¬ k < p.1 := by omega
      have hne : ¬ k = p.1 := by omega
      obtain ⟨old, hold⟩ := ih hm.2 hmem
      exact ⟨old, by simp [btree_map_insert, hnlt, hne, hold]⟩

theorem btree_map_insert_of_not_mem (k v : Nat) (m : List (Nat × Nat))
    (hm : (m.map Prod.fst).Sorted (· < ·)) (hk : k ∉ m.map Prod.fst) :
    (btree_map_insert k v m).2 = none ∧
    (btree_map_insert k v m).1.Perm ((k, v) :: m) ∧
    ((btree_map_insert k v m).1.map Prod.fst).Sorted (· < ·) := by
  induction m with
  | nil => simp [btree_map_insert]
  | cons p ps ih =>
    simp only [List.map_cons, List.sorted_cons] at hm
    have hkp : ¬ k = p.1 := fun h => hk (by simp [h])
    by_cases hlt : k < p.1
    · have heq : btree_map_insert k v (p :: ps) = ((k, v) :: p :: ps, none) := by
        simp [btree_map_insert, hlt]
      refine ⟨by simp [heq], by simp [heq], ?_⟩
      rw [heq]
      simp only [List.map_cons, List.sorted_cons]
      refine ⟨fun b hb => ?_, hm⟩
      rcases List.mem_cons.mp hb with rfl | hb'
      · exact hlt
      · exact lt_trans hlt (hm.1 b hb')
    · have hplt : p.1 < k := by
        rcases Nat.lt_trichotomy k p.1 with h | h | h
        · exact absurd h hlt
        · exact absurd h hkp
        · exact h
      have hkps : k ∉ ps.map Prod.fst := fun h => hk (by simp [h])
      obtain ⟨h1, h2, h3⟩ := ih hm.2 hkps
      have heq : btree_map_insert k v (p :: ps) =
          (p :: (btree_map_insert k v ps).1, (btree_map_insert k v ps).2) := by
        simp [btree_map_insert, hlt, hkp]
      refine ⟨by simp [heq, h1], ?_, ?_⟩
      · rw [heq]
        exact (h2.cons p).trans (List.Perm.swap (k, v) p ps)
      · rw [heq]
        simp only [List.map_cons, List.sorted_cons]
        refine ⟨fun b hb => ?_, h3⟩
        have hperm : ((btree_map_insert k v ps).1.map Prod.fst).Perm
            (k :: ps.map Prod.fst) := by simpa using h2.map Prod.fst
        rcases List.mem_cons.mp (hperm.mem_iff.mp hb) with rfl | hb'
        · exact hplt
        · exact hm.1 b hb'

theorem decode_btree_map_elems_ok (kvs : List (Nat × Nat)) :
    ∀ (acc : List (Nat × Nat)), (acc.map Prod.fst).Sorted (· < ·) →
    (kvs.map Prod.fst).Nodup → (∀ p ∈ kvs, p.1 ∉ acc.map Prod.fst) →
    ∀ (rest : List Nat) (wt : Bool),
    ∃ out, decode_btree_map_elems kvs.length acc
        ⟨(kvs.map (fun p => [p.1, p.2])).flatten ++ rest, wt⟩ = .ok (out, ⟨rest, wt⟩)
      ∧ out.Perm (kvs ++ acc) := by
  induction kvs with
  | nil =>
    intro acc _ _ _ rest wt
    exact ⟨acc, by simp [decode_btree_map_elems], by simp⟩
  | cons p kvs ih =>
    obtain ⟨k, v⟩ := p
    intro acc hacc hnd hdisj rest wt
    have hk : k ∉ acc.map Prod.fst := hdisj (k, v) (by simp)
    obtain ⟨h1, h2, h3⟩ := btree_map_insert_of_not_mem k v acc hacc hk
    rw [List.map_cons, List.nodup_cons] at hnd
    have hperm : ((btree_map_insert k v acc).1.map Prod.fst).Perm
        (k :: acc.map Prod.fst) := by simpa using h2.map Prod.fst
    have hdisj' : ∀ q ∈ kvs, q.1 ∉ (btree_map_insert k v acc).1.map Prod.fst := by
      intro q hq hqin
      rcases List.mem_cons.mp (hperm.mem_iff.mp hqin) with heq | hqacc
      · exact hnd.1 (List.mem_map.mpr ⟨q, hq, heq⟩)
      · exact hdisj q (List.mem_cons_of_mem _ hq) hqacc
    obtain ⟨out, hout, houtp⟩ := ih (btree_map_insert k v acc).1 h3 hnd.2 hdisj' rest wt
    refine ⟨out, ?_, ?_⟩
    · simp only [List.map_cons, List.flatten_cons, List.cons_append, List.length_cons,
        List.append_assoc]
      simp [decode_btree_map_elems, read_u8, h1, hout]
    · exact houtp.trans ((List.Perm.append_left kvs h2).trans List.perm_middle)

theorem decode_btree_map_elems_dup (kvs : List (Nat × Nat)) :
    ∀ (acc : List (Nat × Nat)), (acc.map Prod.fst).Sorted (· < ·) →
    ¬ ((kvs.map Prod.fst).Nodup ∧ ∀ p ∈ kvs, p.1 ∉ acc.map Prod.fst) →
    ∀ (rest : List Nat) (wt : Bool),
    decode_btree_map_elems kvs.length acc
        ⟨(kvs.map (fun p => [p.1, p.2])).flatten ++ rest, wt⟩ =
      .error (.customError "Duplicate BTreeMap entries") := by
  induction kvs with
  | nil =>
    intro acc _ hcon rest wt
    exact absurd ⟨by simp, by simp⟩ hcon
  | cons p kvs ih =>
    obtain ⟨k, v⟩ := p
    intro acc hacc hcon rest wt
    by_cases hk : k ∈ acc.map Prod.fst
    · obtain ⟨old, hold⟩ := btree_map_insert_of_mem k v acc hacc hk
      simp only [List.map_cons, List.flatten_cons, List.cons_append, List.length_cons,
        List.append_assoc]
      simp [decode_btree_map_elems, read_u8, hold]
    · obtain ⟨h1, h2, h3⟩ := btree_map_insert_of_not_mem k v acc hacc hk
      have hperm : ((btree_map_insert k v acc).1.map Prod.fst).Perm
          (k :: acc.map Prod.fst) := by simpa using h2.map Prod.fst
      have hcon' : ¬ ((kvs.map Prod.fst).Nodup ∧
          ∀ q ∈ kvs, q.1 ∉ (btree_map_insert k v acc).1.map Prod.fst) := by
        rintro ⟨hnd, hdis⟩
        apply hcon
        refine ⟨List.nodup_cons.mpr ⟨fun hke => ?_, hnd⟩, fun q hq => ?_⟩
        · rcases List.mem_map.mp hke with ⟨q, hq, hqk⟩
          apply hdis q hq
          rw [hqk]
          exact hperm.mem_iff.mpr (List.mem_cons_self _ _)
        · rcases List.mem_cons.mp hq with rfl | hqkvs
          · exact hk
          · exact fun hqacc =>
              hdis q hqkvs (hperm.mem_iff.mpr (List.mem_cons_of_mem _ hqacc))
      simp only [List.map_cons, List.flatten_cons, List.cons_append, List.length_cons,
        List.append_assoc]
      simp [decode_btree_map_elems, read_u8, h1, ih _ h3 hcon' rest wt]

theorem hash_map_insert_of_mem (k v : Nat) (m : List (Nat × Nat))
    (hk : k ∈ m.map Prod.fst) :
    ∃ old, (hash_map_insert k v m).2 = some old := by
  rcases List.mem_map.mp hk with ⟨q, hq, hqk⟩
  have : (m.find? (fun p => p.1 = k)).isSome := by
    rw [List.find?_isSome]
    exact ⟨q, hq, by simp [hqk]⟩
  rcases Option.isSome_iff_exists.mp this with ⟨r, hr⟩
  exact ⟨r.2, by simp [hash_map_insert, hr]⟩

theorem hash_map_insert_of_not_mem (k v : Nat) (m : List (Nat × Nat))
    (hk : k ∉ m.map Prod.fst) :
    hash_map_insert k v m = (m ++ [(k, v)], none) := by
  have hnone : m.find? (fun p => p.1 = k) = none := by
    rw [List.find?_eq_none]
    intro q hq
    simp only [decide_eq_true_eq]
    exact fun hqk => hk (hqk ▸ List.mem_map_of_mem Prod.fst hq)
  simp [hash_map_insert, hnone]

theorem decode_hash_map_elems_ok (kvs : List (Nat × Nat)) :
    ∀ (acc : List (Nat × Nat)), (kvs.map Prod.fst).Nodup →
    (∀ p ∈ kvs, p.1 ∉ acc.map Prod.fst) →
    ∀ (rest : List Nat) (wt : Bool),
    decode_hash_map_elems kvs.length acc
        ⟨(kvs.map (fun p => [p.1, p.2])).flatten ++ rest, wt⟩ =
      .ok (acc ++ kvs, ⟨rest, wt⟩) := by
  induction kvs with
  | nil =>
    intro acc _ _ rest wt
    simp [decode_hash_map_elems]
  | cons p kvs ih =>
    obtain ⟨k, v⟩ := p
    intro acc hnd hdisj rest wt
    have hk : k ∉ acc.map Prod.fst := hdisj (k, v) (by simp)
    have hins := hash_map_insert_of_not_mem k v acc hk
    rw [List.map_cons, List.nodup_cons] at hnd
    have hdisj' : ∀ q ∈ kvs, q.1 ∉ (acc ++ [(k, v)]).map Prod.fst := by
      intro q hq
      simp only [List.map_append, List.mem_append, List.map_cons, List.map_nil,
        List.mem_singleton]
      rintro (hqacc | hqk)
      · exact hdisj q (List.mem_cons_of_mem _ hq) hqacc
      · exact hnd.1 (List.mem_map.mpr ⟨q, hq, hqk⟩)
    simp only [List.map_cons, List.flatten_cons, List.cons_append, List.length_cons,
      List.append_assoc]
    simp [decode_hash_map_elems, read_u8, hins, ih (acc ++ [(k, v)]) hnd.2 hdisj' rest wt]

theorem decode_hash_map_elems_dup (kvs : List (Nat × Nat)) :
    ∀ (acc : List (Nat × Nat)),
    ¬ ((kvs.map Prod.fst).Nodup ∧ ∀ p ∈ kvs, p.1 ∉ acc.map Prod.fst) →
    ∀ (rest : List Nat) (wt : Bool),
    decode_hash_map_elems kvs.length acc
        ⟨(kvs.map (fun p => [p.1, p.2])).flatten ++ rest, wt⟩ =
      .error (.customError "Duplicate HashMap entries") := by
  induction kvs with
  | nil =>
    intro acc hcon rest wt
    exact absurd ⟨by simp, by simp⟩ hcon
  | cons p kvs ih =>
    obtain ⟨k, v⟩ := p
    intro acc hcon rest wt
    by_cases hk : k ∈ acc.map Prod.fst
    · obtain ⟨old, hold⟩ := hash_map_insert_of_mem k v acc hk
      simp only [List.map_cons, List.flatten_cons, List.cons_append, List.length_cons,
        List.append_assoc]
      simp [decode_hash_map_elems, read_u8, hold]
    · have hins := hash_map_insert_of_not_mem k v acc hk
      have hcon' : ¬ ((kvs.map Prod.fst).Nodup ∧
          ∀ q ∈ kvs, q.1 ∉ (acc ++ [(k, v)]).map Prod.fst) := by
        rintro ⟨hnd, hdis⟩
        apply hcon
        refine ⟨List.nodup_cons.mpr ⟨fun hke => ?_, hnd⟩, fun q hq => ?_⟩
        · rcases List.mem_map.mp hke with ⟨q, hq, hqk⟩
          apply hdis q hq
          rw [hqk]
          simp
        · rcases List.mem_cons.mp hq with rfl | hqkvs
          · exact hk
          · exact fun hqacc => hdis q hqkvs (by simp [hqacc])
      simp only [List.map_cons, List.flatten_cons, List.cons_append, List.length_cons,
        List.append_assoc]
      simp [decode_hash_map_elems, read_u8, hins, ih _ hcon' rest wt]

/-- C6: For every encoded Map or Set (`BTreeSet`, `BTreeMap`, `HashSet`,
`HashMap`, here at `u8` keys) whose element sequence contains two equal
keys, decoding fails with a `CustomError` whose message starts with
"Duplicate"; for every encoded Map/Set without duplicate keys, decoding
succeeds and yields exactly the encoded key(-value) collection. -/
theorem claim6_duplicate_keys_rejected (es : List Nat) (kvs : List (Nat × Nat))
    (hes : es.length < 2 ^ 32) (hkvs : kvs.length < 2 ^ 32) :
    (¬ es.Nodup →
      decode_btree_set_u8 ⟨set_enc es, Bool.true⟩ =
        .error (.customError "Duplicate BTreeSet entries") ∧
      decode_hash_set_u8 ⟨set_enc es, Bool.true⟩ =
        .error (.customError "Duplicate HashSet entries")) ∧
    (es.Nodup →
      (∃ s, decode_btree_set_u8 ⟨set_enc es, Bool.true⟩ = .ok (s, ⟨[], Bool.true⟩) ∧
        s.Perm es) ∧
      decode_hash_set_u8 ⟨set_enc es, Bool.true⟩ = .ok (es, ⟨[], Bool.true⟩)) ∧
    (¬ (kvs.map Prod.fst).Nodup →
      decode_btree_map_u8 ⟨map_enc kvs, Bool.true⟩ =
        .error (.customError "Duplicate BTreeMap entries") ∧
      decode_hash_map_u8 ⟨map_enc kvs, Bool.true⟩ =
        .error (.customError "Duplicate HashMap entries")) ∧
    ((kvs.map Prod.fst).Nodup →
      (∃ m, decode_btree_map_u8 ⟨map_enc kvs, Bool.true⟩ = .ok (m, ⟨[], Bool.true⟩) ∧
        m.Perm kvs) ∧
      decode_hash_map_u8 ⟨map_enc kvs, Bool.true⟩ = .ok (kvs, ⟨[], Bool.true⟩)) := by
  have hbs : decode_btree_set_u8 ⟨set_enc es, Bool.true⟩
      = decode_btree_set_elems es.length [] ⟨es, Bool.true⟩ := by
    simp [decode_btree_set_u8, set_enc, check_type_cons,
      read_len_append es.length hes es Bool.true]
  have hhs : decode_hash_set_u8 ⟨set_enc es, Bool.true⟩
      = decode_hash_set_elems es.length [] ⟨es, Bool.true⟩ := by
    simp [decode_hash_set_u8, set_enc, check_type_cons,
      read_len_append es.length hes es Bool.true]
  have hbm : decode_btree_map_u8 ⟨map_enc kvs, Bool.true⟩
      = decode_btree_map_elems kvs.length []
          ⟨(kvs.map (fun p => [p.1, p.2])).flatten, Bool.true⟩ := by
    simp [decode_btree_map_u8, map_enc, check_type_cons,
      read_len_append kvs.length hkvs _ Bool.true]
  have hhm : decode_hash_map_u8 ⟨map_enc kvs, Bool.true⟩
      = decode_hash_map_elems kvs.length []
          ⟨(kvs.map (fun p => [p.1, p.2])).flatten, Bool.true⟩ := by
    simp [decode_hash_map_u8, map_enc, check_type_cons,
      read_len_append kvs.length hkvs _ Bool.true]
  refine ⟨fun hnd => ⟨?_, ?_⟩, fun hnd => ⟨?_, ?_⟩, fun hnd => ⟨?_, ?_⟩, fun hnd => ⟨?_, ?_⟩⟩
  · have h := decode_btree_set_elems_dup es [] List.sorted_nil
      (fun hc => hnd hc.1) [] Bool.true
    rw [hbs]
    simpa using h
  · have h := decode_hash_set_elems_dup es [] (fun hc => hnd hc.1) [] Bool.true
    rw [hhs]
    simpa using h
  · obtain ⟨out, hout, hperm⟩ := decode_btree_set_elems_ok es [] List.sorted_nil hnd
      (fun x _ => List.not_mem_nil x) [] Bool.true
    refine ⟨out, ?_, by simpa using hperm⟩
    rw [hbs]
    simpa using hout
  · have h := decode_hash_set_elems_ok es [] hnd (fun x _ => List.not_mem_nil x) [] Bool.true
    rw [hhs]
    simpa using h
  · have h := decode_btree_map_elems_dup kvs [] (by simp) (fun hc => hnd hc.1) [] Bool.true
    rw [hbm]
    simpa using h
  · have h := decode_hash_map_elems_dup kvs [] (fun hc => hnd hc.1) [] Bool.true
    rw [hhm]
    simpa using h
  · obtain ⟨out, hout, hperm⟩ := decode_btree_map_elems_ok kvs [] (by simp) hnd
      (by simp) [] Bool.true
    refine ⟨out, ?_, by simpa using hperm⟩
    rw [hbm]
    simpa using hout
  · have h := decode_hash_map_elems_ok kvs [] hnd (by simp) [] Bool.true
    rw [hhm]
    simpa using h

/-- Witness for C6: the duplicate set `[1, 1]` is rejected with the
"Duplicate BTreeSet entries" custom error. -/
theorem claim6_witness :
    decode_btree_set_u8 ⟨set_enc [1, 1], Bool.true⟩ =
      .error (.customError "Duplicate BTreeSet entries") :=
  ((claim6_duplicate_keys_rejected [1, 1] [] (by decide) (by decide)).1 (by decide)).1

end Sbor

namespace Engine

/-- C7: `verify_can_move` returns `CantMoveLockedBucket` exactly on locked
Buckets, `CantMoveRestrictedProof` exactly on restricted Proofs, and `Ok`
on every other node (unlocked Buckets, unrestricted Proofs, Vaults,
Components, KeyValueStores, Packages, Resources, NonFungibles, Worktops
and System nodes). -/
theorem claim7_verify_can_move (n : RENode) :
    (RENode.verify_can_move n = .error .cantMoveLockedBucket ↔
      ∃ b, n = .bucket b ∧ b.is_locked = true) ∧
    (RENode.verify_can_move n = .error .cantMoveRestrictedProof ↔
      ∃ p, n = .proof p ∧ p.is_restricted = true) ∧
    (RENode.verify_can_move n = .ok () ↔
      (∀ b, n = .bucket b → b.is_locked = false) ∧
      (∀ p, n = .proof p → p.is_restricted = false)) := by
  cases n with
  | bucket b =>
    by_cases hb : b.is_locked = true
    · simp [RENode.verify_can_move, hb]
    · simp only [Bool.not_eq_true] at hb
      simp [RENode.verify_can_move, hb]
  | proof p =>
    by_cases hp : p.is_restricted = true
    · simp [RENode.verify_can_move, hp]
    · simp only [Bool.not_eq_true] at hp
      simp [RENode.verify_can_move, hp]
  | vault v => simp [RENode.verify_can_move]
  | keyValueStore s => simp [RENode.verify_can_move]
  | component c => simp [RENode.verify_can_move]
  | worktop w => simp [RENode.verify_can_move]
  | package p => simp [RENode.verify_can_move]
  | resource r => simp [RENode.verify_can_move]
  | nonFungibles nfs => simp [RENode.verify_can_move]
  | system s => simp [RENode.verify_can_move]

/-- Witness for C7 at a locked bucket, an unrestricted proof and a vault. -/
theorem claim7_witness :
    RENode.verify_can_move (.bucket ⟨0, 5, 1⟩) = .error .cantMoveLockedBucket ∧
    RENode.verify_can_move (.proof ⟨0, 5, false⟩) = .ok () ∧
    RENode.verify_can_move (.vault ⟨0, 5⟩) = .ok () :=
  ⟨(claim7_verify_can_move (.bucket ⟨0, 5, 1⟩)).1.mpr ⟨⟨0, 5, 1⟩, rfl, by decide⟩,
   (claim7_verify_can_move (.proof ⟨0, 5, false⟩)).2.2.mpr
     ⟨(fun b h => nomatch h), (fun p h => (by cases h; rfl))⟩,
   (claim7_verify_can_move (.vault ⟨0, 5⟩)).2.2.mpr
     ⟨(fun b h => nomatch h), (fun p h => nomatch h)⟩⟩

/-- C2 counterexample: the claim says every empty Bucket is droppable, but
`RENode::try_drop` rejects every Bucket — including an empty, unlocked
one — with `DropFailure::Bucket`. -/
theorem claim2_counterexample :
    Bucket.is_empty ⟨0, 0, 0⟩ = true ∧
    RENode.try_drop (.bucket ⟨0, 0, 0⟩) = .error .bucket := by
  constructor
  · decide
  · rfl

/-- C2 (amended): when a call frame ends, `try_drop` succeeds for every
Proof and for every Worktop whose `drop` succeeds (empty worktops), and
fails with the corresponding `DropFailure` kind for every other node —
including every Bucket, empty or not (`DropFailure::Bucket`), with
NonFungibles reported as `DropFailure::Resource`. -/
theorem claim2_try_drop_amended :
    (∀ p : Proof, RENode.try_drop (.proof p) = .ok ()) ∧
    (∀ b : Bucket, RENode.try_drop (.bucket b) = .error .bucket) ∧
    (∀ w : Worktop, RENode.try_drop (.worktop w) = Worktop.drop w ∧
      (Worktop.is_empty w = true → RENode.try_drop (.worktop w) = .ok ())) ∧
    (∀ v, RENode.try_drop (.vault v) = .error .vault) ∧
    (∀ s, RENode.try_drop (.keyValueStore s) = .error .keyValueStore) ∧
    (∀ c, RENode.try_drop (.component c) = .error .component) ∧
    (∀ pk, RENode.try_drop (.package pk) = .error .package) ∧
    (∀ r, RENode.try_drop (.resource r) = .error .resource) ∧
    (∀ nfs, RENode.try_drop (.nonFungibles nfs) = .error .resource) ∧
    (∀ s, RENode.try_drop (.system s) = .error .system) := by
  refine ⟨fun p => rfl, fun b => rfl, fun w => ⟨rfl, fun hw => ?_⟩,
    fun v => rfl, fun s => rfl, fun c => rfl, fun pk => rfl, fun r => rfl,
    fun nfs => rfl, fun s => rfl⟩
  show Worktop.drop w = .ok ()
  simp [Worktop.drop, hw]

/-- Witness for C2 (amended) at a proof and an empty worktop. -/
theorem claim2_witness :
    RENode.try_drop (.proof ⟨0, 0, false⟩) = .ok () ∧
    RENode.try_drop (.worktop ⟨[]⟩) = .ok () :=
  ⟨claim2_try_drop_amended.1 ⟨0, 0, false⟩,
   (claim2_try_drop_amended.2.2.1 ⟨[]⟩).2 (by decide)⟩

end Engine

namespace Wasm

/-- C1 (code bug): on the write path the source checks
`size > ptr && size - ptr >= n` — not the claimed `ptr + 4 + len ≤ size`.
With a 65536-byte memory, a guest-returned pointer 65532 and a 4-byte
payload, the guard passes and `send_value` copies to addresses
65536..65539, past the end of linear memory, instead of returning
`MemoryAllocError` without copying. -/
theorem claim1_send_value_copies_out_of_bounds :
    send_value 65536 (some 65532) [1, 2, 3, 4] = .ok (65532, 65536, 65540) ∧
    ¬ (65532 + 4 + 4 ≤ 65536) ∧ 65536 + 4 ≤ 65540 := by
  refine ⟨?_, by decide, by decide⟩
  rfl

/-- The read path does enforce the claimed bound: whenever `read_value`
returns a payload, the source range `[ptr, ptr + 4 + len)` lies inside the
memory. -/
theorem read_value_checks_bounds (mem : List Nat) (ptr : Nat) (payload : List Nat)
    (h : read_value mem ptr = .ok payload) :
    ptr + 4 + payload.length ≤ mem.length := by
  simp only [read_value] at h
  split_ifs at h with h1 h2
  · injection h with h'
    have hn : mem.length - ptr - 4 ≥ Sbor.fromLE ((mem.drop ptr).take 4) := h2
    have hlen : payload.length ≤ Sbor.fromLE ((mem.drop ptr).take 4) := by
      rw [← h']
      simp [List.length_take]
    omega

end Wasm

namespace Validator

/-- C8 counterexample: a module that parses, has no floating point, has no
start function, exports `memory`, but fails instantiation (e.g. an
unresolvable `env` import) — whose `package_init` invocation therefore
cannot succeed — is rejected with `InvalidModule` by the source, while the
claim's five ordered conditions predict `NoPackageInitExport`. -/
theorem claim8_counterexample :
    validate_module ⟨Bool.true, Bool.false, Bool.false, Bool.false, Bool.true, Bool.false⟩ =
      .error .invalidModule ∧
    validate_module_per_claim
        ⟨Bool.true, Bool.false, Bool.false, Bool.false, Bool.true, Bool.false⟩ =
      .error .noPackageInitExport ∧
    WasmValidationError.invalidModule ≠ WasmValidationError.noPackageInitExport := by
  refine ⟨rfl, rfl, by decide⟩

/-- C8 (amended): `validate_module(code)` returns `Ok` exactly when the
module parses, contains no floating-point opcodes, instantiates against the
`env` resolver, has no start function, exports `memory` as a memory, and
its `package_init` invocation under a no-op host succeeds.  The checks run
in that order, with both the parse failure and the instantiation failure
reported as `InvalidModule` and the remaining conditions yielding
`FloatingPointNotAllowed`, `StartFunctionNotAllowed`,
`NoValidMemoryExport` and `NoPackageInitExport` respectively. -/
theorem claim8_validate_module_amended (m : WasmModuleProps) :
    (validate_module m = .ok () ↔
      m.parses = true ∧ m.has_floating_point = false ∧ m.instantiates = true ∧
      m.has_start = false ∧ m.memory_export_is_memory = true ∧
      m.package_init_invocation_ok = true) ∧
    (m.parses = false → validate_module m = .error .invalidModule) ∧
    (m.parses = true → m.has_floating_point = true →
      validate_module m = .error .floatingPointNotAllowed) ∧
    (m.parses = true → m.has_floating_point = false → m.instantiates = false →
      validate_module m = .error .invalidModule) ∧
    (m.parses = true → m.has_floating_point = false → m.instantiates = true →
      m.has_start = true → validate_module m = .error .startFunctionNotAllowed) ∧
    (m.parses = true → m.has_floating_point = false → m.instantiates = true →
      m.has_start = false → m.memory_export_is_memory = false →
      validate_module m = .error .noValidMemoryExport) ∧
    (m.parses = true → m.has_floating_point = false → m.instantiates = true →
      m.has_start = false → m.memory_export_is_memory = true →
      m.package_init_invocation_ok = false →
      validate_module m = .error .noPackageInitExport) := by
  obtain ⟨p, f, i, s, me, pi⟩ := m
  cases p <;> cases f <;> cases i <;> cases s <;> cases me <;> cases pi <;>
    simp [validate_module]

/-- Witness for C8 (amended): a fully conforming module validates. -/
theorem claim8_witness :
    validate_module ⟨Bool.true, Bool.false, Bool.true, Bool.false, Bool.true, Bool.true⟩ =
      .ok () :=
  (claim8_validate_module_amended
    ⟨Bool.true, Bool.false, Bool.true, Bool.false, Bool.true, Bool.true⟩).1.mpr
    (by decide)

end Validator

namespace Resource

/-- C4: for every fungible ResourceManager with divisibility `granularity`,
minting an amount that is not a multiple of `10^-granularity` fails with
`InvalidAmount(amount, granularity)` (in particular minting 0.1 with
granularity 0), and minting an amount that would raise total supply above
`10^18` fails with `MaxMintAmountExceeded`; in both cases the resource
manager substate is unchanged (the transaction commits as a failure). -/
theorem claim4_mint_granularity_and_cap (rm : ResourceManager) (amount : Decimal) :
    (amount.attos % (10 : Int) ^ (18 - rm.granularity) ≠ 0 →
      commit_mint rm amount = (rm, some (.invalidAmount amount rm.granularity))) ∧
    (amount.attos % (10 : Int) ^ (18 - rm.granularity) = 0 →
      rm.total_supply.attos + amount.attos > MAX_TOTAL_SUPPLY_ATTOS →
      commit_mint rm amount = (rm, some .maxMintAmountExceeded)) := by
  constructor
  · intro h
    simp [commit_mint, mint, h]
  · intro h1 h2
    simp [commit_mint, mint, h1, h2]

/-- Witness for C4: scenario S1 (granularity 0, mint 0.1 = 10^17 attos)
and scenario S2 (granularity 0, mint 10^18 + 1 whole units). -/
theorem claim4_witness :
    commit_mint ⟨0, ⟨0⟩⟩ ⟨10 ^ 17⟩ = (⟨0, ⟨0⟩⟩, some (.invalidAmount ⟨10 ^ 17⟩ 0)) ∧
    commit_mint ⟨0, ⟨0⟩⟩ ⟨(10 ^ 18 + 1) * 10 ^ 18⟩ = (⟨0, ⟨0⟩⟩, some .maxMintAmountExceeded) :=
  ⟨(claim4_mint_granularity_and_cap ⟨0, ⟨0⟩⟩ ⟨10 ^ 17⟩).1 (by decide),
   (claim4_mint_granularity_and_cap ⟨0, ⟨0⟩⟩ ⟨(10 ^ 18 + 1) * 10 ^ 18⟩).2
     (by decide) (by decide)⟩

end Resource

namespace Kernel

/-- C3: for every committed state in which a Vault is referenced by a
stored component state, any write that removes that reference (and whose
removed references are vaults) fails with
`KernelError::StoredNodeRemoved(Vault(_))` and leaves the store — in
particular the vault substate — unchanged. -/
theorem claim3_stored_vault_cannot_be_removed (st : ComponentStore)
    (vid : Engine.VaultId) (new_ids : List Engine.RENodeId)
    (hmem : Engine.RENodeId.vault vid ∈ st.component_state_ids)
    (hrem : Engine.RENodeId.vault vid ∉ new_ids)
    (hvaults : ∀ id ∈ st.component_state_ids, id ∉ new_ids →
      ∃ w, id = Engine.RENodeId.vault w) :
    (write_component_state st new_ids).1 = st ∧
    (write_component_state st new_ids).1.vault_substates = st.vault_substates ∧
    ∃ w, (write_component_state st new_ids).2 =
      some (.storedNodeRemoved (Engine.RENodeId.vault w)) := by
  have hex : ∃ id ∈ st.component_state_ids, (!new_ids.contains id) = true :=
    ⟨_, hmem, by simp [hrem]⟩
  have hsome : (st.component_state_ids.find? (fun id => !new_ids.contains id)).isSome :=
    List.find?_isSome.mpr hex
  obtain ⟨id0, hid0⟩ := Option.isSome_iff_exists.mp hsome
  have hid0p := List.find?_some hid0
  have hid0mem : id0 ∈ st.component_state_ids := List.mem_of_find?_eq_some hid0
  have hid0not : id0 ∉ new_ids := by simpa using hid0p
  obtain ⟨w, rfl⟩ := hvaults id0 hid0mem hid0not
  have hws : write_component_state st new_ids =
      (st, some (KernelError.storedNodeRemoved (Engine.RENodeId.vault w))) := by
    unfold write_component_state verify_stored_ids
    rw [hid0]
  exact ⟨by rw [hws], by rw [hws], w, by rw [hws]⟩

/-- Witness for C3: a component storing one vault, written to with an
empty reference set. -/
theorem claim3_witness :
    (write_component_state ⟨[Engine.RENodeId.vault (0, 0)], [(0, 0)]⟩ []).1 =
      ⟨[Engine.RENodeId.vault (0, 0)], [(0, 0)]⟩ ∧
    (write_component_state ⟨[Engine.RENodeId.vault (0, 0)], [(0, 0)]⟩ []).1.vault_substates =
      [(0, 0)] ∧
    ∃ w, (write_component_state ⟨[Engine.RENodeId.vault (0, 0)], [(0, 0)]⟩ []).2 =
      some (.storedNodeRemoved (Engine.RENodeId.vault w)) :=
  claim3_stored_vault_cannot_be_removed ⟨[Engine.RENodeId.vault (0, 0)], [(0, 0)]⟩ (0, 0) []
    (by decide) (by decide)
    (fun id hid _ => ⟨(0, 0), List.mem_singleton.mp hid⟩)

end Kernel

namespace MemoryDb

theorem take_length_append (X Y : List Nat) (k : Nat) (hk : X.length = k) :
    (X ++ Y).take k = X := by
  rw [← hk]
  exact List.take_left X Y

theorem drop_length_append (X Y : List Nat) (k : Nat) (hk : X.length = k) :
    (X ++ Y).drop k = Y := by
  rw [← hk]
  exact List.drop_left X Y

theorem decode_encode_output_value (v : OutputValue) (hv : v.wfVal = true) :
    decode_output_value (encode_output_value v) = some v := by
  obtain ⟨sub, ver⟩ := v
  simp only [OutputValue.wfVal, Bool.and_eq_true, decide_eq_true_eq] at hv
  have hA : (Sbor.toLE 4 ver).length = 4 := Sbor.length_toLE 4 ver
  have hB : (Sbor.toLE 4 sub.length).length = 4 := Sbor.length_toLE 4 sub.length
  have hAB : (Sbor.toLE 4 ver ++ Sbor.toLE 4 sub.length).length = 8 := by
    simp only [List.length_append, hA, hB]
  have henc : encode_output_value ⟨sub, ver⟩ =
      (Sbor.toLE 4 ver ++ Sbor.toLE 4 sub.length) ++ sub := by
    simp [encode_output_value]
  have hlen : (encode_output_value ⟨sub, ver⟩).length = 8 + sub.length := by
    rw [henc]
    simp only [List.length_append, hA, hB]
  have htake4 : (encode_output_value ⟨sub, ver⟩).take 4 = Sbor.toLE 4 ver := by
    rw [henc, List.append_assoc]
    exact take_length_append _ _ 4 hA
  have hdrop4 : (encode_output_value ⟨sub, ver⟩).drop 4 =
      Sbor.toLE 4 sub.length ++ sub := by
    rw [henc, List.append_assoc]
    exact drop_length_append _ _ 4 hA
  have hdrop8 : (encode_output_value ⟨sub, ver⟩).drop 8 = sub := by
    rw [henc]
    exact drop_length_append _ _ 8 hAB
  have h256 : (256 : Nat) ^ 4 = 2 ^ 32 := by norm_num
  unfold decode_output_value
  rw [if_neg (by omega)]
  rw [htake4, hdrop4, hdrop8, take_length_append _ _ 4 hB,
    Sbor.fromLE_toLE 4 ver (by omega), Sbor.fromLE_toLE 4 sub.length (by omega)]
  simp

theorem append_toLE_inj (k x y : Nat) (X Y : List Nat) (hx : x < 256 ^ k)
    (hy : y < 256 ^ k) (h : Sbor.toLE k x ++ X = Sbor.toLE k y ++ Y) :
    x = y ∧ X = Y := by
  have hlen : (Sbor.toLE k x).length = (Sbor.toLE k y).length := by
    simp [Sbor.length_toLE]
  obtain ⟨h1, h2⟩ := List.append_inj h hlen
  exact ⟨Sbor.toLE_inj k x y hx hy h1, h2⟩

theorem encode_substate_id_inj : ∀ (a b : SubstateId), a.wfId = true → b.wfId = true →
    encode_substate_id a = encode_substate_id b → a = b := by
  intro a b ha hb h
  cases a <;> cases b <;> simp [encode_substate_id] at h
  · simp only [SubstateId.wfId, decide_eq_true_eq] at ha hb
    exact congrArg SubstateId.componentInfo (Sbor.toLE_inj 8 _ _ ha hb h)
  · simp only [SubstateId.wfId, decide_eq_true_eq] at ha hb
    exact congrArg SubstateId.package (Sbor.toLE_inj 8 _ _ ha hb h)
  · simp only [SubstateId.wfId, decide_eq_true_eq] at ha hb
    exact congrArg SubstateId.resourceManager (Sbor.toLE_inj 8 _ _ ha hb h)
  · simp only [SubstateId.wfId, decide_eq_true_eq] at ha hb
    exact congrArg SubstateId.nonFungibleSpace (Sbor.toLE_inj 8 _ _ ha hb h)
  · simp only [SubstateId.wfId, Bool.and_eq_true, decide_eq_true_eq] at ha hb
    obtain ⟨h1, h2⟩ := append_toLE_inj 8 _ _ _ _ ha.1 hb.1 h
    obtain ⟨h3, h4⟩ := append_toLE_inj 4 _ _ _ _ ha.2 hb.2 h2
    rw [h1, h4]
  · simp only [SubstateId.wfId, Bool.and_eq_true, decide_eq_true_eq] at ha hb
    obtain ⟨h1, h2⟩ := append_toLE_inj 8 _ _ _ _ ha.1 hb.1 h
    have h3 := Sbor.toLE_inj 8 _ _ ha.2 hb.2 h2
    rename_i i j
    have hij : i = j := by
      cases i
      cases j
      simp_all
    rw [hij]
  · simp only [SubstateId.wfId, Bool.and_eq_true, decide_eq_true_eq] at ha hb
    obtain ⟨h1, h2⟩ := append_toLE_inj 8 _ _ _ _ ha.1.1 hb.1.1 h
    obtain ⟨h3, h4⟩ := append_toLE_inj 8 _ _ _ _ ha.1.2 hb.1.2 h2
    obtain ⟨h5, h6⟩ := append_toLE_inj 4 _ _ _ _ ha.2 hb.2 h4
    rename_i i key j key'
    have hij : i = j := by
      cases i
      cases j
      simp_all
    rw [hij, h6]
  · simp only [SubstateId.wfId, Bool.and_eq_true, decide_eq_true_eq] at ha hb
    obtain ⟨h1, h2⟩ := append_toLE_inj 8 _ _ _ _ ha.1 hb.1 h
    have h3 := Sbor.toLE_inj 8 _ _ ha.2 hb.2 h2
    rename_i i j
    have hij : i = j := by
      cases i
      cases j
      simp_all
    rw [hij]
  · simp only [SubstateId.wfId, decide_eq_true_eq] at ha hb
    exact congrArg SubstateId.componentState (Sbor.toLE_inj 8 _ _ ha hb h)
  · rfl
  · simp only [SubstateId.wfId, decide_eq_true_eq] at ha hb
    exact congrArg SubstateId.bucket (Sbor.toLE_inj 8 _ _ ha hb h)
  · simp only [SubstateId.wfId, decide_eq_true_eq] at ha hb
    exact congrArg SubstateId.proof (Sbor.toLE_inj 8 _ _ ha hb h)
  · rfl

end MemoryDb

namespace MemoryDb

theorem al_get_cons (k k' v : List Nat) (m : List (List Nat × List Nat)) :
    al_get k ((k', v) :: m) = if k' = k then some v else al_get k m := by
  by_cases h : k' = k
  · simp [al_get, h]
  · simp [al_get, h]

/-- C9: running any operation history against the fresh store, `get_substate`
returns the value of the last `put_substate` to that id — overwriting
earlier puts, unaffected by puts to other ids, and `none` for an id never
put — and `is_root` returns true exactly when `set_root` of that id occurs
in the history. -/
theorem claim9_store_laws (ops : List StoreOp) (id : SubstateId)
    (hops : ∀ op ∈ ops, op.wfOp = true) (hid : id.wfId = true) :
    get_substate (run_ops ops) id = last_put ops id ∧
    is_root (run_ops ops) id = decide (StoreOp.setRoot id ∈ ops) := by
  induction ops using List.reverseRecOn with
  | nil =>
    constructor
    · simp [run_ops, get_substate, al_get, emptyStore, last_put]
    · simp [run_ops, is_root, emptyStore]
  | append_singleton ops op ih =>
    have hops' : ∀ o ∈ ops, o.wfOp = true := fun o ho => hops o (by simp [ho])
    have hop : op.wfOp = true := hops op (by simp)
    obtain ⟨hget, hroot⟩ := ih hops'
    have hrun : run_ops (ops ++ [op]) = apply_op (run_ops ops) op := by
      simp [run_ops, List.foldl_append]
    cases op with
    | put i v =>
      have hwf : i.wfId = true ∧ v.wfVal = true := by
        simpa [StoreOp.wfOp] using hop
      by_cases hi : i = id
      · subst hi
        refine ⟨?_, ?_⟩
        · rw [hrun]
          have hg : get_substate (put_substate (run_ops ops) i v) i = some v := by
            unfold get_substate put_substate
            rw [al_get_cons, if_pos rfl]
            exact decode_encode_output_value v hwf.2
          have hl : last_put (ops ++ [StoreOp.put i v]) i = some v := by
            unfold last_put
            rw [List.filterMap_append]
            simp
          rw [show apply_op (run_ops ops) (StoreOp.put i v) =
            put_substate (run_ops ops) i v from rfl, hg, hl]
        · rw [hrun]
          have hr : is_root (apply_op (run_ops ops) (StoreOp.put i v)) i =
              is_root (run_ops ops) i := rfl
          rw [hr, hroot]
          simp [List.mem_append]
      · have henc : encode_substate_id i ≠ encode_substate_id id :=
          fun he => hi (encode_substate_id_inj i id hwf.1 hid he)
        refine ⟨?_, ?_⟩
        · rw [hrun]
          have hg : get_substate (put_substate (run_ops ops) i v) id =
              get_substate (run_ops ops) id := by
            unfold get_substate put_substate
            rw [al_get_cons, if_neg henc]
          have hl : last_put (ops ++ [StoreOp.put i v]) id = last_put ops id := by
            unfold last_put
            rw [List.filterMap_append]
            simp [hi]
          rw [show apply_op (run_ops ops) (StoreOp.put i v) =
            put_substate (run_ops ops) i v from rfl, hg, hget, hl]
        · rw [hrun]
          have hr : is_root (apply_op (run_ops ops) (StoreOp.put i v)) id =
              is_root (run_ops ops) id := rfl
          rw [hr, hroot]
          simp [List.mem_append]
    | setRoot i =>
      have hwf : i.wfId = true := by simpa [StoreOp.wfOp] using hop
      refine ⟨?_, ?_⟩
      · rw [hrun]
        have hg : get_substate (apply_op (run_ops ops) (StoreOp.setRoot i)) id =
            get_substate (run_ops ops) id := rfl
        have hl : last_put (ops ++ [StoreOp.setRoot i]) id = last_put ops id := by
          unfold last_put
          rw [List.filterMap_append]
          simp
        rw [hg, hget, hl]
      · rw [hrun]
        have hc : is_root (apply_op (run_ops ops) (StoreOp.setRoot i)) id =
            (decide (encode_substate_id id = encode_substate_id i) ||
              is_root (run_ops ops) id) := by
          show is_root (set_root (run_ops ops) i) id = _
          simp [is_root, set_root, List.contains_cons]
        rw [hc, hroot]
        by_cases hi : i = id
        · subst hi
          simp [List.mem_append]
        · have henc : encode_substate_id id ≠ encode_substate_id i :=
            fun he => hi (encode_substate_id_inj i id hwf hid he.symm)
          simp [List.mem_append, henc]
          exact fun h => absurd h.symm hi

/-- Witness for C9 at a two-operation history. -/
theorem claim9_witness :
    get_substate (run_ops [StoreOp.put (SubstateId.vault (0, 0)) ⟨[1], 0⟩,
        StoreOp.setRoot SubstateId.system]) (SubstateId.vault (0, 0)) =
      some ⟨[1], 0⟩ ∧
    is_root (run_ops [StoreOp.put (SubstateId.vault (0, 0)) ⟨[1], 0⟩,
        StoreOp.setRoot SubstateId.system]) (SubstateId.vault (0, 0)) = false := by
  have h := claim9_store_laws
    [StoreOp.put (SubstateId.vault (0, 0)) ⟨[1], 0⟩, StoreOp.setRoot SubstateId.system]
    (SubstateId.vault (0, 0)) (by decide) (by decide)
  refine ⟨?_, ?_⟩
  · rw [h.1]
    decide
  · rw [h.2]
    decide

end MemoryDb

namespace ScryptoVal

theorem fresh_cons_iff {α : Type} {id : α} {B l : List α} (hmem : id ∉ l) :
    (B.Nodup ∧ ∀ x ∈ B, x ∉ id :: l) ↔ ((id :: B).Nodup ∧ ∀ x ∈ id :: B, x ∉ l) := by
  rw [List.forall_mem_cons, List.nodup_cons]
  constructor
  · rintro ⟨hnd, hall⟩
    refine ⟨⟨fun hidB => ?_, hnd⟩, hmem, fun x hx => ?_⟩
    · exact (hall id hidB) (List.mem_cons_self id l)
    · intro hxl
      exact (hall x hx) (List.mem_cons_of_mem id hxl)
  · rintro ⟨⟨hidB, hnd⟩, _, hall⟩
    refine ⟨hnd, fun x hx => ?_⟩
    intro hxidl
    rcases List.mem_cons.mp hxidl with rfl | hxl
    · exact hidB hx
    · exact hall x hx hxl

set_option maxHeartbeats 1600000 in
theorem run_checker_ok_iff (ls : List CustomLeaf) : ∀ (st : Checker),
    (∃ st', run_checker ls st = .ok st') ↔
      (((bucket_ids_of ls).Nodup ∧ ∀ x ∈ bucket_ids_of ls, x ∉ st.buckets) ∧
       ((proof_ids_of ls).Nodup ∧ ∀ x ∈ proof_ids_of ls, x ∉ st.proofs) ∧
       ((vault_ids_of ls).Nodup ∧ ∀ x ∈ vault_ids_of ls, x ∉ st.vaults) ∧
       ((kv_ids_of ls).Nodup ∧ ∀ x ∈ kv_ids_of ls, x ∉ st.kv_stores) ∧
       ((component_ids_of ls).Nodup ∧ ∀ x ∈ component_ids_of ls, x ∉ st.components)) := by
  induction ls with
  | nil =>
    intro st
    simp [run_checker, bucket_ids_of, proof_ids_of, vault_ids_of, kv_ids_of,
      component_ids_of]
  | cons c ls ih =>
    intro st
    cases c with
    | packageAddr a =>
      simpa [run_checker, visit, bucket_ids_of, proof_ids_of, vault_ids_of,
        kv_ids_of, component_ids_of] using ih st
    | componentAddr a =>
      simpa [run_checker, visit, bucket_ids_of, proof_ids_of, vault_ids_of,
        kv_ids_of, component_ids_of] using
        ih { st with ref_components := set_insert a st.ref_components }
    | component a =>
      simp only [run_checker, visit, bucket_ids_of, proof_ids_of, vault_ids_of,
        kv_ids_of, component_ids_of, List.filterMap_cons]
      by_cases hmem : a ∈ st.components
      · simp [hmem, List.forall_mem_cons]
      · simp only [if_neg hmem]
        rw [ih _]
        exact and_congr Iff.rfl (and_congr Iff.rfl (and_congr Iff.rfl
          (and_congr Iff.rfl (fresh_cons_iff hmem))))
    | keyValueStore id =>
      simp only [run_checker, visit, bucket_ids_of, proof_ids_of, vault_ids_of,
        kv_ids_of, component_ids_of, List.filterMap_cons]
      by_cases hmem : id ∈ st.kv_stores
      · simp [hmem, List.forall_mem_cons]
      · simp only [if_neg hmem]
        rw [ih _]
        exact and_congr Iff.rfl (and_congr Iff.rfl (and_congr Iff.rfl
          (and_congr (fresh_cons_iff hmem) Iff.rfl)))
    | hash h =>
      simpa [run_checker, visit, bucket_ids_of, proof_ids_of, vault_ids_of,
        kv_ids_of, component_ids_of] using ih st
    | decimal d =>
      simpa [run_checker, visit, bucket_ids_of, proof_ids_of, vault_ids_of,
        kv_ids_of, component_ids_of] using ih st
    | bucket id =>
      simp only [run_checker, visit, bucket_ids_of, proof_ids_of, vault_ids_of,
        kv_ids_of, component_ids_of, List.filterMap_cons]
      by_cases hmem : id ∈ st.buckets
      · simp [hmem, List.forall_mem_cons]
      · simp only [if_neg hmem]
        rw [ih _]
        exact and_congr (fresh_cons_iff hmem) Iff.rfl
    | proof id =>
      simp only [run_checker, visit, bucket_ids_of, proof_ids_of, vault_ids_of,
        kv_ids_of, component_ids_of, List.filterMap_cons]
      by_cases hmem : id ∈ st.proofs
      · simp [hmem, List.forall_mem_cons]
      · simp only [if_neg hmem]
        rw [ih _]
        exact and_congr Iff.rfl (and_congr (fresh_cons_iff hmem) Iff.rfl)
    | vault id =>
      simp only [run_checker, visit, bucket_ids_of, proof_ids_of, vault_ids_of,
        kv_ids_of, component_ids_of, List.filterMap_cons]
      by_cases hmem : id ∈ st.vaults
      · simp [hmem, List.forall_mem_cons]
      · simp only [if_neg hmem]
        rw [ih _]
        exact and_congr Iff.rfl (and_congr Iff.rfl
          (and_congr (fresh_cons_iff hmem) Iff.rfl))
    | nonFungibleId bs =>
      simpa [run_checker, visit, bucket_ids_of, proof_ids_of, vault_ids_of,
        kv_ids_of, component_ids_of] using ih st
    | resourceAddr a =>
      simpa [run_checker, visit, bucket_ids_of, proof_ids_of, vault_ids_of,
        kv_ids_of, component_ids_of] using
        ih { st with resource_addresses := set_insert a st.resource_addresses }
    | expression s =>
      simpa [run_checker, visit, bucket_ids_of, proof_ids_of, vault_ids_of,
        kv_ids_of, component_ids_of] using
        ih { st with expressions := st.expressions ++ [s] }

set_option maxHeartbeats 1600000 in
theorem run_checker_ok_mem (ls : List CustomLeaf) : ∀ (st st' : Checker),
    run_checker ls st = .ok st' →
      (∀ x, x ∈ st'.buckets ↔ x ∈ bucket_ids_of ls ∨ x ∈ st.buckets) ∧
      (∀ x, x ∈ st'.proofs ↔ x ∈ proof_ids_of ls ∨ x ∈ st.proofs) ∧
      (∀ x, x ∈ st'.vaults ↔ x ∈ vault_ids_of ls ∨ x ∈ st.vaults) ∧
      (∀ x, x ∈ st'.kv_stores ↔ x ∈ kv_ids_of ls ∨ x ∈ st.kv_stores) ∧
      (∀ x, x ∈ st'.components ↔ x ∈ component_ids_of ls ∨ x ∈ st.components) := by
  induction ls with
  | nil =>
    intro st st' h
    simp only [run_checker] at h
    injection h with h
    subst h
    simp [bucket_ids_of, proof_ids_of, vault_ids_of, kv_ids_of, component_ids_of]
  | cons c ls ih =>
    intro st st' h
    cases c with
    | packageAddr a =>
      simpa [bucket_ids_of, proof_ids_of, vault_ids_of, kv_ids_of, component_ids_of]
        using ih st st' h
    | componentAddr a =>
      simpa [bucket_ids_of, proof_ids_of, vault_ids_of, kv_ids_of, component_ids_of]
        using ih { st with ref_components := set_insert a st.ref_components } st' h
    | hash hh =>
      simpa [bucket_ids_of, proof_ids_of, vault_ids_of, kv_ids_of, component_ids_of]
        using ih st st' h
    | decimal d =>
      simpa [bucket_ids_of, proof_ids_of, vault_ids_of, kv_ids_of, component_ids_of]
        using ih st st' h
    | nonFungibleId bs =>
      simpa [bucket_ids_of, proof_ids_of, vault_ids_of, kv_ids_of, component_ids_of]
        using ih st st' h
    | resourceAddr a =>
      simpa [bucket_ids_of, proof_ids_of, vault_ids_of, kv_ids_of, component_ids_of]
        using ih { st with resource_addresses := set_insert a st.resource_addresses } st' h
    | expression s =>
      simpa [bucket_ids_of, proof_ids_of, vault_ids_of, kv_ids_of, component_ids_of]
        using ih { st with expressions := st.expressions ++ [s] } st' h
    | bucket id =>
      simp only [run_checker, visit] at h
      by_cases hmem : id ∈ st.buckets
      · simp [hmem] at h
      · simp only [if_neg hmem] at h
        obtain ⟨h1, h2, h3, h4, h5⟩ := ih _ _ h
        simp only [bucket_ids_of, proof_ids_of, vault_ids_of, kv_ids_of,
          component_ids_of, List.filterMap_cons]
        refine ⟨fun x => ?_, h2, h3, h4, h5⟩
        rw [h1 x]
        simp only [List.mem_cons]
        tauto
    | proof id =>
      simp only [run_checker, visit] at h
      by_cases hmem : id ∈ st.proofs
      · simp [hmem] at h
      · simp only [if_neg hmem] at h
        obtain ⟨h1, h2, h3, h4, h5⟩ := ih _ _ h
        simp only [bucket_ids_of, proof_ids_of, vault_ids_of, kv_ids_of,
          component_ids_of, List.filterMap_cons]
        refine ⟨h1, fun x => ?_, h3, h4, h5⟩
        rw [h2 x]
        simp only [List.mem_cons]
        tauto
    | vault id =>
      simp only [run_checker, visit] at h
      by_cases hmem : id ∈ st.vaults
      · simp [hmem] at h
      · simp only [if_neg hmem] at h
        obtain ⟨h1, h2, h3, h4, h5⟩ := ih _ _ h
        simp only [bucket_ids_of, proof_ids_of, vault_ids_of, kv_ids_of,
          component_ids_of, List.filterMap_cons]
        refine ⟨h1, h2, fun x => ?_, h4, h5⟩
        rw [h3 x]
        simp only [List.mem_cons]
        tauto
    | keyValueStore id =>
      simp only [run_checker, visit] at h
      by_cases hmem : id ∈ st.kv_stores
      · simp [hmem] at h
      · simp only [if_neg hmem] at h
        obtain ⟨h1, h2, h3, h4, h5⟩ := ih _ _ h
        simp only [bucket_ids_of, proof_ids_of, vault_ids_of, kv_ids_of,
          component_ids_of, List.filterMap_cons]
        refine ⟨h1, h2, h3, fun x => ?_, h5⟩
        rw [h4 x]
        simp only [List.mem_cons]
        tauto
    | component a =>
      simp only [run_checker, visit] at h
      by_cases hmem : a ∈ st.components
      · simp [hmem] at h
      · simp only [if_neg hmem] at h
        obtain ⟨h1, h2, h3, h4, h5⟩ := ih _ _ h
        simp only [bucket_ids_of, proof_ids_of, vault_ids_of, kv_ids_of,
          component_ids_of, List.filterMap_cons]
        refine ⟨h1, h2, h3, h4, fun x => ?_⟩
        rw [h5 x]
        simp only [List.mem_cons]
        tauto

/-- C10: `ScryptoValue::from_value` (and hence `from_slice`) rejects any
value in which the same Bucket id, Proof id, Vault id, KeyValueStore id or
owned Component appears at two distinct positions, with
`DecodeError::CustomError("DuplicateIds")`; on success, the collected
`bucket_ids`, `proof_ids`, `vault_ids`, `kv_store_ids` and
`owned_component_addresses` contain exactly the ids occurring in the
value. -/
theorem claim10_duplicate_ids (v : SVal) :
    (from_value v = .error (.customError "DuplicateIds") ↔
      ¬ ((bucket_ids_of (custom_leaves v)).Nodup ∧
         (proof_ids_of (custom_leaves v)).Nodup ∧
         (vault_ids_of (custom_leaves v)).Nodup ∧
         (kv_ids_of (custom_leaves v)).Nodup ∧
         (component_ids_of (custom_leaves v)).Nodup)) ∧
    (∀ sv, from_value v = .ok sv →
      (∀ x, x ∈ sv.bucket_ids ↔ x ∈ bucket_ids_of (custom_leaves v)) ∧
      (∀ x, x ∈ sv.proof_ids ↔ x ∈ proof_ids_of (custom_leaves v)) ∧
      (∀ x, x ∈ sv.vault_ids ↔ x ∈ vault_ids_of (custom_leaves v)) ∧
      (∀ x, x ∈ sv.kv_store_ids ↔ x ∈ kv_ids_of (custom_leaves v)) ∧
      (∀ x, x ∈ sv.owned_component_addresses ↔
        x ∈ component_ids_of (custom_leaves v))) := by
  have hiff := run_checker_ok_iff (custom_leaves v) Checker.empty
  simp only [Checker.empty, List.not_mem_nil, not_false_iff, implies_true,
    and_true] at hiff
  cases hrc : run_checker (custom_leaves v) Checker.empty with
  | error e =>
    cases e
    have hfv : from_value v = .error (.customError "DuplicateIds") := by
      simp [from_value, hrc, debug_str]
    have hno : ¬ ∃ st', run_checker (custom_leaves v) Checker.empty = .ok st' := by
      rw [hrc]
      rintro ⟨st', hst'⟩
      cases hst'
    have hnc : ¬ ((bucket_ids_of (custom_leaves v)).Nodup ∧
        (proof_ids_of (custom_leaves v)).Nodup ∧
        (vault_ids_of (custom_leaves v)).Nodup ∧
        (kv_ids_of (custom_leaves v)).Nodup ∧
        (component_ids_of (custom_leaves v)).Nodup) :=
      fun hc => hno (hiff.mpr hc)
    refine ⟨iff_of_true hfv hnc, ?_⟩
    intro sv hsv
    rw [hfv] at hsv
    cases hsv
  | ok st =>
    have hfv : from_value v =
        .ok ⟨st.buckets, st.proofs, st.vaults, st.kv_stores, st.components⟩ := by
      simp [from_value, hrc]
    have hconds := hiff.mp ⟨st, hrc⟩
    obtain ⟨h1, h2, h3, h4, h5⟩ := run_checker_ok_mem (custom_leaves v) Checker.empty st hrc
    refine ⟨iff_of_false (by rw [hfv]; intro hc; cases hc) (fun hc => hc hconds), ?_⟩
    intro sv hsv
    rw [hfv] at hsv
    injection hsv with hsv
    subst hsv
    refine ⟨fun x => ?_, fun x => ?_, fun x => ?_, fun x => ?_, fun x => ?_⟩
    · simpa [Checker.empty] using h1 x
    · simpa [Checker.empty] using h2 x
    · simpa [Checker.empty] using h3 x
    · simpa [Checker.empty] using h4 x
    · simpa [Checker.empty] using h5 x

/-- Witness for C10: a list holding the same bucket id twice is rejected,
and a two-leaf value collects exactly its bucket and vault ids. -/
theorem claim10_witness :
    from_value (.list [.custom (.bucket 0), .custom (.bucket 0)]) =
      .error (.customError "DuplicateIds") ∧
    from_value (.list [.custom (.bucket 1), .custom (.vault (2, 3))]) =
      .ok ⟨[1], [], [(2, 3)], [], []⟩ := by
  constructor
  · exact (claim10_duplicate_ids
      (.list [.custom (.bucket 0), .custom (.bucket 0)])).1.mpr
      (by simp [custom_leaves, custom_leaves_list, bucket_ids_of])
  · rfl

end ScryptoVal
